import Mathlib

/-!
# decs_kvserver: the cache-coordinated access layer

A shallow embedding of `src/main.cpp`: the `LRUCache` class (a `std::list` of
key/value pairs plus a `std::unordered_map` from key to list iterator), the
`PGPool` queue of connections, the `KVHandler` operations that compose the
cache with the pool and the backing store, and the helper `url_decode`; and of
the method selection of `src/loadtester/random_request.cpp`.

Conventions of the embedding.

* A `std::list` node is a `Node` carrying an identity `id`; an iterator is the
  identity of the node it points at.  List operations keep the identity of the
  nodes they do not create, exactly as `std::list` keeps iterators valid.
* `std::unordered_map<std::string, iterator>` is an association list; only
  `find`, `erase`, `operator[]` and `size` are used by the source.
* Operations whose C++ behaviour is undefined (dereferencing an iterator that
  points at no node, `back()` of an empty list) return `none`.
* The store reads its parameters as NUL-terminated strings (`c_str()` with no
  parameter lengths), so it receives a key or value only up to its first NUL;
  the cache keeps the whole `std::string`.
-/

namespace KVServer

/-! ## `std::list<std::pair<std::string, std::string>>` -/

/-- An iterator of `lru_list_`: the identity of the node it designates. -/
abbrev Iter := Nat

/-- One node of `lru_list_`: its identity and the stored pair. -/
structure Node where
  id : Iter
  first : String
  second : String
deriving DecidableEq, Repr

/-- Dereference an iterator: the node of the list with that identity, if any. -/
def nodeAt (l : List Node) (it : Iter) : Option Node :=
  l.find? (fun n => n.id == it)

/-- The statement `it->second = value` on the node designated by `it`. -/
def assignSecond (l : List Node) (it : Iter) (value : String) : Option (List Node) :=
  match nodeAt l it with
  | none => none
  | some _ => some (l.map (fun n => if n.id = it then { n with second := value } else n))

/-- The call `l.splice(l.begin(), l, it)`: the node moves to the front, the
others keep their relative order. -/
def spliceBegin (l : List Node) (it : Iter) : Option (List Node) :=
  match nodeAt l it with
  | none => none
  | some n => some (n :: l.filter (fun m => m.id != it))

/-- The call `l.erase(it)`. -/
def listErase (l : List Node) (it : Iter) : Option (List Node) :=
  match nodeAt l it with
  | none => none
  | some _ => some (l.filter (fun m => m.id != it))

/-- The call `l.back()`. -/
def back (l : List Node) : Option Node := l.getLast?

/-- The call `l.pop_back()`. -/
def popBack (l : List Node) : List Node := l.dropLast

/-- Identity given to a newly allocated node: distinct from every live node. -/
def freshIter (l : List Node) : Iter := (l.map Node.id).foldr max 0 + 1

/-- The call `l.push_front({key, value})`; afterwards `l.begin()` is the new node. -/
def pushFront (l : List Node) (key value : String) : List Node :=
  { id := freshIter l, first := key, second := value } :: l

/-! ## `std::unordered_map<std::string, iterator>` -/

/-- The map from key to list iterator. -/
abbrev UMap := List (String × Iter)

namespace UMap

/-- The call `m.find(key)`; `none` stands for `m.end()`. -/
def find (m : UMap) (key : String) : Option Iter :=
  (List.find? (fun e => e.1 == key) m).map Prod.snd

/-- The call `m.erase(key)`. -/
def erase (m : UMap) (key : String) : UMap :=
  List.filter (fun e => e.1 != key) m

/-- The statement `m[key] = it`. -/
def assign (m : UMap) (key : String) (it : Iter) : UMap :=
  match find m key with
  | some _ => List.map (fun e => if e.1 = key then (key, it) else e) m
  | none => (key, it) :: m

/-- The call `m.size()`. -/
def size (m : UMap) : Nat := List.length m

end UMap

/-! ## `class LRUCache` -/

/-- The data members of `LRUCache` (the mutex has no sequential content). -/
structure LRUCache where
  lru_list_ : List Node
  cache_map_ : UMap
  max_size_ : Nat
deriving DecidableEq, Repr

namespace LRUCache

/-- The constructor `LRUCache(size_t max_size)`: a size of 0 becomes 1. -/
def mk_ (max_size : Nat) : LRUCache :=
  { lru_list_ := [], cache_map_ := [], max_size_ := if max_size = 0 then 1 else max_size }

/-- The method `LRUCache::put`. -/
def put (c : LRUCache) (key value : String) : Option LRUCache :=
  match c.cache_map_.find key with
  | some it =>
    -- Case 1: key already in cache, update the value and move to the front
    match assignSecond c.lru_list_ it value with
    | none => none
    | some l1 =>
      match spliceBegin l1 it with
      | none => none
      | some l2 => some { c with lru_list_ := l2 }
  | none =>
    -- Case 2: key is new, evict the back of the list when full
    let evicted : Option LRUCache :=
      if c.cache_map_.size ≥ c.max_size_ then
        match back c.lru_list_ with
        | none => none
        | some lru_item =>
          some { c with cache_map_ := c.cache_map_.erase lru_item.first,
                        lru_list_ := popBack c.lru_list_ }
      else some c
    match evicted with
    | none => none
    | some c1 =>
      some { c1 with lru_list_ := pushFront c1.lru_list_ key value,
                     cache_map_ := c1.cache_map_.assign key (freshIter c1.lru_list_) }

/-- The method `LRUCache::get`; `value_out` is the caller's variable, returned
together with the boolean result and the new cache state. -/
def get (c : LRUCache) (key : String) (value_out : String) : Option (Bool × String × LRUCache) :=
  match c.cache_map_.find key with
  | none => some (false, value_out, c)
  | some it =>
    match spliceBegin c.lru_list_ it with
    | none => none
    | some l1 =>
      match nodeAt l1 it with
      | none => none
      | some n => some (true, n.second, { c with lru_list_ := l1 })

/-- The method `LRUCache::erase`. -/
def erase (c : LRUCache) (key : String) : Option LRUCache :=
  match c.cache_map_.find key with
  | none => some c
  | some it =>
    match listErase c.lru_list_ it with
    | none => none
    | some l1 => some { c with lru_list_ := l1, cache_map_ := c.cache_map_.erase key }

/-- The value cached for `key`, read the way the source reads it
(`cache_map_.find(key)->second->second`). -/
def lookup (c : LRUCache) (key : String) : Option String :=
  match c.cache_map_.find key with
  | none => none
  | some it => (nodeAt c.lru_list_ it).map Node.second

/-- The resident pairs, from the MRU end to the LRU end. -/
def entries (c : LRUCache) : List (String × String) :=
  c.lru_list_.map (fun n => (n.first, n.second))

/-- The resident keys, from the MRU end to the LRU end. -/
def keys (c : LRUCache) : List String :=
  c.lru_list_.map Node.first

end LRUCache

/-- One public call on the cache. -/
inductive Op where
  | put (key value : String)
  | get (key : String)
  | erase (key : String)
deriving DecidableEq, Repr

/-- Run one public call, dropping what `get` returns. -/
def step (c : LRUCache) : Op → Option LRUCache
  | .put k v => c.put k v
  | .get k => (c.get k "").map (fun r => r.2.2)
  | .erase k => c.erase k

/-- Run a sequence of public calls from left to right. -/
def run (c : LRUCache) : List Op → Option LRUCache
  | [] => some c
  | op :: ops => match step c op with
    | none => none
    | some c1 => run c1 ops

/-- Run a sequence of `put` calls from left to right. -/
def runPuts (c : LRUCache) (ps : List (String × String)) : Option LRUCache :=
  run c (ps.map (fun p => Op.put p.1 p.2))

/-- The representation invariant of `LRUCache`: node identities and keys are
unique in `lru_list_`, `cache_map_` records exactly the pairs (key of a node,
iterator to that node), and the size respects the capacity. -/
structure Inv (c : LRUCache) : Prop where
  ids_nodup : (c.lru_list_.map Node.id).Nodup
  keys_nodup : (c.lru_list_.map Node.first).Nodup
  map_perm : List.Perm c.cache_map_ (c.lru_list_.map (fun n => (n.first, n.id)))
  cap_pos : 1 ≤ c.max_size_
  size_le : c.lru_list_.length ≤ c.max_size_

/-- Recency order after one more touch of `k`: `k` first, the others as before. -/
def touch (r : List String) (k : String) : List String :=
  k :: r.filter (fun x => x != k)

/-- The distinct keys of a sequence of touches, most recently touched first. -/
def recency (ks : List String) : List String := ks.foldl touch []

/-- The state reached from `LRUCache(2)` by `put("a", "1")` then `put("b", "2")`. -/
def exampleCache : LRUCache :=
  { lru_list_ := [{ id := 2, first := "b", second := "2" }, { id := 1, first := "a", second := "1" }]
    cache_map_ := [("b", 2), ("a", 1)]
    max_size_ := 2 }

/-! ## `class PGPool` -/

/-- A connection handle (`PGconn *`). -/
abbrev PGconn := Nat

/-- The queue of available connections of `PGPool`, front first. -/
structure PGPool where
  conns_ : List PGconn
deriving DecidableEq, Repr

namespace PGPool

/-- The method `PGPool::acquire`: the front connection is popped.  On an empty
queue the wait on `cv_` never returns in a sequential run, which is `none`. -/
def acquire (p : PGPool) : Option (PGconn × PGPool) :=
  match p.conns_ with
  | [] => none
  | c :: rest => some (c, { conns_ := rest })

/-- The method `PGPool::release`: the connection is pushed at the back. -/
def release (p : PGPool) (c : PGconn) : PGPool :=
  { conns_ := p.conns_ ++ [c] }

end PGPool

/-! ## The backing store, as the statements prepared by `PGPool` use it -/

/-- The rows `(k, v)` of `kv_store`, most recently updated first; `k` is the
primary key. -/
abbrev Table := List (String × String)

namespace Table

/-- The statement `SELECT v FROM kv_store WHERE k=$1`. -/
def get (t : Table) (k : String) : Option String :=
  (List.find? (fun row => row.1 == k) t).map Prod.snd

/-- The statement `INSERT INTO kv_store(k,v) VALUES($1,$2) ON CONFLICT(k) DO
UPDATE SET v=EXCLUDED.v, updated_at=now()`. -/
def upsert (t : Table) (k v : String) : Table :=
  (k, v) :: List.filter (fun row => row.1 != k) t

/-- The statement `DELETE FROM kv_store WHERE k=$1`. -/
def delete (t : Table) (k : String) : Table :=
  List.filter (fun row => row.1 != k) t

/-- The query `SELECT k, v FROM kv_store ORDER BY updated_at DESC LIMIT limit`. -/
def selectRecent (t : Table) (limit : Nat) : List (String × String) :=
  List.take limit t

end Table

/-- A statement sent to the store. -/
inductive Stmt where
  | kv_get (k : String)
  | kv_put (k v : String)
  | kv_del (k : String)
  | select_recent (limit : Nat)
deriving DecidableEq, Repr

/-- A call made by the handler on the pool or on the store, as a stub of these
collaborators records it. -/
inductive Event where
  | acquire (c : PGconn)
  | exec (c : PGconn) (s : Stmt)
  | release (c : PGconn)
deriving DecidableEq, Repr

/-- Number of store calls recorded in a trace. -/
def storeCalls (tr : List Event) : Nat :=
  (tr.filter (fun e => match e with
    | .exec _ _ => true
    | _ => false)).length

/-- Number of pool acquisitions recorded in a trace. -/
def acquireCalls (tr : List Event) : Nat :=
  (tr.filter (fun e => match e with
    | .acquire _ => true
    | _ => false)).length

/-- What `send_json` writes: the status code and the members of the JSON object. -/
structure Response where
  status : Nat
  body : List (String × String)
deriving DecidableEq, Repr

/-! ## `class KVHandler` -/

/-- The call `s.c_str()` as the store reads it, a NUL-terminated string passed
with `paramLengths = nullptr`, and the construction of a `std::string` from a
`char *`: the characters before the first NUL. -/
def c_str (s : String) : String :=
  String.mk (s.data.takeWhile (fun c => c != Char.ofNat 0))

/-- The members of `KVHandler` together with the store its pool connects to
and the record of the calls made on pool and store. -/
structure KVHandler where
  pool_ : PGPool
  cache_ : LRUCache
  table : Table
  trace : List Event
deriving DecidableEq, Repr

namespace KVHandler

/-- The reply sent when a statement fails, `err` being `PQerrorMessage(pg)`. -/
def dbError (err : String) : Response :=
  { status := 500, body := [("error", "db_error"), ("message", err)] }

/-- The method `KVHandler::doGet`.  `fail` is `some err` when the status of the
statement is not `PGRES_TUPLES_OK`, the store then being left as it was.  The
store receives `key.c_str()`, the cache the whole `key`.  The C++ return value
is `true` on every path and is left out. -/
def doGet (h : KVHandler) (key : String) (fail : Option String) :
    Option (Response × KVHandler) :=
  match h.cache_.get key "" with
  | none => none
  | some (true, value, cache1) =>
    some ({ status := 200, body := [("key", key), ("value", value), ("cache", "HIT")] },
      { h with cache_ := cache1 })
  | some (false, _, cache1) =>
    match h.pool_.acquire with
    | none => none
    | some (pg, pool1) =>
      let trace1 := h.trace ++ [Event.acquire pg, Event.exec pg (Stmt.kv_get (c_str key))]
      match fail with
      | some err =>
        some (dbError err,
          { h with cache_ := cache1, pool_ := pool1.release pg,
                   trace := trace1 ++ [Event.release pg] })
      | none =>
        match h.table.get (c_str key) with
        | none =>
          some ({ status := 404, body := [("error", "not_found"), ("cache", "MISS")] },
            { h with cache_ := cache1, pool_ := pool1.release pg,
                     trace := trace1 ++ [Event.release pg] })
        | some db_value =>
          match cache1.put key db_value with
          | none => none
          | some cache2 =>
            some ({ status := 200,
                    body := [("key", key), ("value", db_value), ("cache", "MISS")] },
              { h with cache_ := cache2, pool_ := pool1.release pg,
                       trace := trace1 ++ [Event.release pg] })

/-- The method `KVHandler::doPut`, from the point where `value` has been read
from the request body.  `fail` is `some err` when the status of the statement
is not `PGRES_COMMAND_OK`, the store then being left as it was.  The store
receives `key.c_str()` and `value.c_str()`, the cache the whole strings. -/
def doPut (h : KVHandler) (key value : String) (fail : Option String) :
    Option (Response × KVHandler) :=
  match h.pool_.acquire with
  | none => none
  | some (pg, pool1) =>
    let trace1 := h.trace ++
      [Event.acquire pg, Event.exec pg (Stmt.kv_put (c_str key) (c_str value))]
    match fail with
    | some err =>
      some (dbError err,
        { h with pool_ := pool1.release pg, trace := trace1 ++ [Event.release pg] })
    | none =>
      match h.cache_.put key value with
      | none => none
      | some cache1 =>
        some ({ status := 200, body := [("status", "ok"), ("key", key), ("value", value)] },
          { h with cache_ := cache1, pool_ := pool1.release pg,
                   table := h.table.upsert (c_str key) (c_str value),
                   trace := trace1 ++ [Event.release pg] })

/-- The method `KVHandler::doDelete`.  `fail` is `some err` when the status of
the statement is not `PGRES_COMMAND_OK`, the store then being left as it was.
The store receives `key.c_str()`, the cache the whole `key`. -/
def doDelete (h : KVHandler) (key : String) (fail : Option String) :
    Option (Response × KVHandler) :=
  match h.pool_.acquire with
  | none => none
  | some (pg, pool1) =>
    let trace1 := h.trace ++ [Event.acquire pg, Event.exec pg (Stmt.kv_del (c_str key))]
    match fail with
    | some err =>
      some (dbError err,
        { h with pool_ := pool1.release pg, trace := trace1 ++ [Event.release pg] })
    | none =>
      match h.cache_.erase key with
      | none => none
      | some cache1 =>
        some ({ status := 200, body := [("status", "deleted"), ("key", key)] },
          { h with cache_ := cache1, pool_ := pool1.release pg,
                   table := h.table.delete (c_str key),
                   trace := trace1 ++ [Event.release pg] })

/-- The method `KVHandler::warmUpCache`: the rows returned by the query are put
into the cache in the order the store returns them, key and value being
built from the `char *` that `PQgetvalue` returns.  `fail` is `some err` when
the status of the query is not `PGRES_TUPLES_OK`. -/
def warmUpCache (h : KVHandler) (limit : Nat) (fail : Option String) : Option KVHandler :=
  match h.pool_.acquire with
  | none => none
  | some (pg, pool1) =>
    let trace1 := h.trace ++ [Event.acquire pg, Event.exec pg (Stmt.select_recent limit)]
    match fail with
    | some _ =>
      some { h with pool_ := pool1.release pg, trace := trace1 ++ [Event.release pg] }
    | none =>
      match runPuts h.cache_
          ((h.table.selectRecent limit).map (fun row => (c_str row.1, c_str row.2))) with
      | none => none
      | some cache1 =>
        some { h with cache_ := cache1, pool_ := pool1.release pg,
                      trace := trace1 ++ [Event.release pg] }

/-- The constant `CACHE_MAX_ITEMS`. -/
def CACHE_MAX_ITEMS : Nat := 10000

/-- The constructor `KVHandler(pool, cache_size)` over a store holding `table`. -/
def mk_ (pool : PGPool) (cache_size : Nat) (table : Table) (fail : Option String) :
    Option KVHandler :=
  warmUpCache { pool_ := pool, cache_ := LRUCache.mk_ cache_size, table := table, trace := [] }
    CACHE_MAX_ITEMS fail

end KVHandler

/-- A handler over `exampleCache` with a pool of two connections, the store
holding the two cached rows, and nothing recorded yet. -/
def exampleHandler : KVHandler :=
  { pool_ := { conns_ := [10, 11] }
    cache_ := exampleCache
    table := [("b", "2"), ("a", "1")]
    trace := [] }

/-! ## Sequences of handler calls and of pool calls -/

/-- One request served by the handler, with the outcome of its store statement
(`some err` when the statement fails). -/
inductive Request where
  | get (key : String) (fail : Option String)
  | put (key value : String) (fail : Option String)
  | delete (key : String) (fail : Option String)
deriving DecidableEq, Repr

/-- Serve one request. -/
def handle (h : KVHandler) : Request → Option (Response × KVHandler)
  | .get k fail => h.doGet k fail
  | .put k v fail => h.doPut k v fail
  | .delete k fail => h.doDelete k fail

/-- Serve a sequence of requests one after the other. -/
def serve (h : KVHandler) : List Request → Option KVHandler
  | [] => some h
  | r :: rs => match handle h r with
    | none => none
    | some (_, h1) => serve h1 rs

/-- A request whose key and value hold no NUL character, so that the store
receives them whole. -/
def Request.plain : Request → Prop
  | .get k _ => c_str k = k
  | .put k v _ => c_str k = k ∧ c_str v = v
  | .delete k _ => c_str k = k

/-- The pool after an operation holds the handles it held before: either
nothing was acquired, or the one handle acquired was released once, to the
back of the queue, after one statement. -/
def poolRestored (h h1 : KVHandler) : Prop :=
  h1.pool_.conns_.Perm h.pool_.conns_ ∧
  ((h1.pool_ = h.pool_ ∧ h1.trace = h.trace) ∨
    ∃ pg rest stmt, h.pool_.conns_ = pg :: rest ∧ h1.pool_.conns_ = rest ++ [pg] ∧
      h1.trace = h.trace ++ [Event.acquire pg, Event.exec pg stmt, Event.release pg])

/-- The constructor `PGPool(conninfo, pool_size)` when every connection is
established: `handles` are the connections in the order they are pushed. -/
def PGPool.mk_ (handles : List PGconn) : PGPool :=
  { conns_ := handles }

/-- A pool together with the handles that callers currently hold. -/
structure PoolState where
  pool : PGPool
  outstanding : List PGconn
deriving DecidableEq, Repr

/-- One call on the pool by some caller. -/
inductive PoolOp where
  | acquire
  | release (c : PGconn)
deriving DecidableEq, Repr

/-- One pool call.  `none` when the call is not admissible: an `acquire` with
no handle available, or a `release` of a handle no caller holds. -/
def poolStep (s : PoolState) : PoolOp → Option PoolState
  | .acquire =>
    match s.pool.acquire with
    | none => none
    | some (c, p) => some { pool := p, outstanding := c :: s.outstanding }
  | .release c =>
    if c ∈ s.outstanding then
      some { pool := s.pool.release c, outstanding := s.outstanding.erase c }
    else none

/-- A sequence of pool calls, from left to right. -/
def poolRun (s : PoolState) : List PoolOp → Option PoolState
  | [] => some s
  | op :: ops => match poolStep s op with
    | none => none
    | some s1 => poolRun s1 ops

/-- A store of two rows, `"new"` updated after `"old"`. -/
def exampleTable2 : Table := [("new", "n"), ("old", "o")]

/-- A handler with an empty cache of capacity 2 over a store holding the single
row `("a", "1")`. -/
def exampleHandlerRowA : KVHandler :=
  { pool_ := PGPool.mk_ [10, 11]
    cache_ := LRUCache.mk_ 2
    table := [("a", "1")]
    trace := [] }

/-- A handler with an empty cache of capacity 2 over an empty store. -/
def exampleHandlerEmpty : KVHandler :=
  { pool_ := PGPool.mk_ [10, 11]
    cache_ := LRUCache.mk_ 2
    table := []
    trace := [] }

/-- What holds of the handler between requests: the cache satisfies its
invariant, a connection is available, and every resident pair is a row of
the store. -/
structure Served (h : KVHandler) : Prop where
  inv : Inv h.cache_
  pool : h.pool_.conns_ ≠ []
  agree : ∀ e ∈ h.cache_.entries, h.table.get e.1 = some e.2

/-! ## `url_decode` -/

/-- The value of a hexadecimal digit, `none` for any other character. -/
def hexVal (c : Char) : Option Nat :=
  if 48 ≤ c.toNat ∧ c.toNat ≤ 57 then some (c.toNat - 48)
  else if 97 ≤ c.toNat ∧ c.toNat ≤ 102 then some (c.toNat - 87)
  else if 65 ≤ c.toNat ∧ c.toNat ≤ 70 then some (c.toNat - 55)
  else none

/-- The characters `isspace` accepts, which a conversion skips first. -/
def isSpace (c : Char) : Bool :=
  c.toNat = 32 || (9 ≤ c.toNat && c.toNat ≤ 13)

/-- The longest run of hexadecimal digits at the front, read in base 16. -/
def scanHexDigits (acc : Nat) : List Char → Nat
  | [] => acc
  | c :: cs =>
    match hexVal c with
    | some d => scanHexDigits (16 * acc + d) cs
    | none => acc

/-- The call `sscanf(str, "%x", &ii)`: the value stored in `ii`, or `none` when
no conversion takes place and `ii` is left as it was.  White space is skipped,
a sign and a `0x` prefix are accepted, then hexadecimal digits are read. -/
def sscanf_x (str : List Char) : Option Int :=
  let s1 := str.dropWhile isSpace
  let signed : Bool × List Char :=
    match s1 with
    | c :: t => if c.toNat = 45 then (true, t) else if c.toNat = 43 then (false, t) else (false, s1)
    | [] => (false, s1)
  let s2 := signed.2
  let s3 :=
    match s2 with
    | c :: d :: e :: t =>
      if c.toNat = 48 ∧ (d.toNat = 120 ∨ d.toNat = 88) ∧ (hexVal e).isSome then e :: t else s2
    | _ => s2
  match s3 with
  | [] => none
  | c :: _ =>
    match hexVal c with
    | none => none
    | some _ => some (if signed.1 then -(scanHexDigits 0 s3 : Int) else (scanHexDigits 0 s3 : Int))

/-- The conversion `static_cast<char>(ii)`. -/
def toChar (ii : Int) : Char := Char.ofNat (ii % 256).toNat

/-- The loop of `url_decode` from position `i`, given the characters from `i`
on and the content of `ii` (`none` while it is uninitialised); `none` when an
uninitialised `ii` is read. -/
def url_decode_from (ii : Option Int) : List Char → Option (List Char)
  | [] => some []
  | c :: rest =>
    if c = '%' then
      let stored : Option Int :=
        match sscanf_x (rest.take 2) with
        | some v => some v
        | none => ii
      match stored with
      | none => none
      | some v =>
        match rest with
        | _ :: _ :: rest2 => (url_decode_from (some v) rest2).map (fun ret => toChar v :: ret)
        | _ => some [toChar v]
    else if c = '+' then (url_decode_from ii rest).map (fun ret => ' ' :: ret)
    else (url_decode_from ii rest).map (fun ret => c :: ret)

/-- The function `url_decode`; a `Char` stands for one `char` of the string. -/
def url_decode (s : String) : Option String :=
  (url_decode_from none s.data).map String.mk

/-- Every `%` of the string is immediately followed by two hexadecimal digits. -/
def EachPercentEscaped (s : List Char) : Prop :=
  ∀ i, i < s.length → s[i]? = some '%' →
    (s[i + 1]?.bind hexVal).isSome ∧ (s[i + 2]?.bind hexVal).isSome

/-- The reference percent-decoding: `%XY` becomes the character of value
`16 * X + Y`, `+` becomes a space, every other character is copied.  (A `%`
with fewer than two characters after it is copied with them; no such `%`
occurs in a string where every `%` is followed by two hexadecimal digits.) -/
def percentDecode : List Char → List Char
  | [] => []
  | c :: rest =>
    if c = '%' then
      match rest with
      | x :: y :: rest2 =>
        Char.ofNat (16 * (hexVal x).getD 0 + (hexVal y).getD 0) :: percentDecode rest2
      | _ => c :: rest
    else if c = '+' then ' ' :: percentDecode rest
    else c :: percentDecode rest

/-! ## The load tester (`src/loadtester/random_request.cpp`) -/

namespace LoadTester

/-- The request method drawn for one iteration of the loop. -/
inductive Method where
  | GET
  | PUT
  | DELETE
deriving DecidableEq, Repr

/-- What `std::getenv` and `std::stoi` give for one variable: the variable is
not set, `std::stoi` throws, or `std::stoi` returns `n`. -/
inductive EnvValue where
  | unset
  | invalid
  | parsed (n : Int)
deriving DecidableEq, Repr

/-- Reading one percentage with its "basic validation": the default stays
unless `std::stoi` returns a value in `0..100`. -/
def readPercent (dflt : Int) : EnvValue → Int
  | .unset => dflt
  | .invalid => dflt
  | .parsed n => if n < 0 ∨ n > 100 then dflt else n

/-- The variable `get_percent` after `GET_PERCENT` is read. -/
def get_percent (env : EnvValue) : Int := readPercent 70 env

/-- The variable `put_percent` after `PUT_PERCENT` is read. -/
def put_percent (env : EnvValue) : Int := readPercent 20 env

/-- The constant `GET_THRESHOLD`. -/
def GET_THRESHOLD (get_percent : Int) : Int := get_percent

/-- The constant `PUT_THRESHOLD`. -/
def PUT_THRESHOLD (get_percent put_percent : Int) : Int :=
  GET_THRESHOLD get_percent + put_percent

/-- The DELETE percentage printed by the start-up banner. -/
def bannerDelete (get_percent put_percent : Int) : Int :=
  100 - PUT_THRESHOLD get_percent put_percent

/-- The method chosen for the draw `r = rand() % 100`. -/
def chooseMethod (get_percent put_percent : Int) (r : Int) : Method :=
  if r < GET_THRESHOLD get_percent then Method.GET
  else if r < PUT_THRESHOLD get_percent put_percent then Method.PUT
  else Method.DELETE

/-- Number of draws among the first `n` values `0, ..., n - 1` that choose `m`. -/
def drawsBelow (n : Nat) (get_percent put_percent : Int) (m : Method) : Nat :=
  ((List.range n).filter
    (fun r : Nat => decide (chooseMethod get_percent put_percent (Int.ofNat r) = m))).length

/-- Number of draws among the 100 values of `rand() % 100` that choose `m`. -/
def draws (get_percent put_percent : Int) (m : Method) : Nat :=
  drawsBelow 100 get_percent put_percent m

end LoadTester

/-! ## Lemmas on the list and map models -/

theorem nodeAt_middle (l₁ l₂ : List Node) (n : Node)
    (h : ∀ m ∈ l₁, m.id ≠ n.id) : nodeAt (l₁ ++ n :: l₂) n.id = some n := by
  induction l₁ with
  | nil => simp [nodeAt]
  | cons a t ih =>
    have ha : a.id ≠ n.id := h a (by simp)
    have := ih (fun m hm => h m (by simp [hm]))
    simp only [nodeAt] at this ⊢
    simp [List.find?_cons, ha, this]

theorem filter_id_middle (l₁ l₂ : List Node) (n : Node)
    (h : ∀ m ∈ l₁ ++ l₂, m.id ≠ n.id) :
    (l₁ ++ n :: l₂).filter (fun m => m.id != n.id) = l₁ ++ l₂ := by
  have h1 : l₁.filter (fun m => m.id != n.id) = l₁ :=
    List.filter_eq_self.2 (fun m hm => by simpa using h m (by simp [hm]))
  have h2 : l₂.filter (fun m => m.id != n.id) = l₂ :=
    List.filter_eq_self.2 (fun m hm => by simpa using h m (by simp [hm]))
  simp [List.filter_append, List.filter_cons, h1, h2]

theorem freshIter_gt (l : List Node) : ∀ n ∈ l, n.id < freshIter l := by
  induction l with
  | nil => simp
  | cons a t ih =>
    intro n hn
    simp only [freshIter, List.map_cons, List.foldr_cons] at ih ⊢
    rcases List.mem_cons.1 hn with rfl | hm
    · exact Nat.lt_succ_of_le (Nat.le_max_left _ _)
    · exact Nat.lt_succ_of_le (le_trans (Nat.le_of_lt_succ (ih n hm)) (Nat.le_max_right _ _))

theorem UMap.find_eq_some_iff (m : UMap) (h : (m.map Prod.fst).Nodup) (k : String) (it : Iter) :
    UMap.find m k = some it ↔ (k, it) ∈ m := by
  induction m with
  | nil => simp [UMap.find]
  | cons e t ih =>
    obtain ⟨ek, ei⟩ := e
    simp only [List.map_cons, List.nodup_cons] at h
    have iht := ih h.2
    simp only [UMap.find] at iht ⊢
    by_cases hk : ek = k
    · subst hk
      have hnot : (ek, it) ∉ t := fun hm => h.1 (List.mem_map.2 ⟨(ek, it), hm, rfl⟩)
      simp [List.find?_cons, hnot, eq_comm]
    · have hk2 : ¬ k = ek := fun e => hk e.symm
      simp [List.find?_cons, hk, hk2, iht]

theorem UMap.find_eq_none_iff (m : UMap) (k : String) :
    UMap.find m k = none ↔ k ∉ m.map Prod.fst := by
  simp only [UMap.find, Option.map_eq_none', List.find?_eq_none, List.mem_map, not_exists, not_and]
  constructor
  · intro h e he hk
    exact h e he (by simp [hk])
  · intro h e he hk
    exact h e he (by simpa using hk)

/-! ## Consequences of the invariant -/

theorem Inv.map_keys_perm {c : LRUCache} (h : Inv c) :
    (c.cache_map_.map Prod.fst).Perm c.keys := by
  have := h.map_perm.map Prod.fst
  simpa [LRUCache.keys, List.map_map, Function.comp_def] using this

theorem Inv.map_keys_nodup {c : LRUCache} (h : Inv c) : (c.cache_map_.map Prod.fst).Nodup :=
  h.map_keys_perm.nodup_iff.2 h.keys_nodup

theorem Inv.size_eq {c : LRUCache} (h : Inv c) : c.cache_map_.size = c.lru_list_.length := by
  simpa [UMap.size] using h.map_perm.length_eq

theorem Inv.find_some {c : LRUCache} (h : Inv c) (k : String) (it : Iter) :
    c.cache_map_.find k = some it ↔ ∃ n ∈ c.lru_list_, n.first = k ∧ n.id = it := by
  rw [UMap.find_eq_some_iff _ h.map_keys_nodup, h.map_perm.mem_iff]
  simp only [List.mem_map, Prod.mk.injEq]

theorem Inv.find_none {c : LRUCache} (h : Inv c) (k : String) :
    c.cache_map_.find k = none ↔ k ∉ c.keys := by
  rw [UMap.find_eq_none_iff, h.map_keys_perm.mem_iff]

/-- A hit splits the list around the node the map points at. -/
theorem Inv.hit {c : LRUCache} (h : Inv c) {k : String} {it : Iter}
    (hf : c.cache_map_.find k = some it) :
    ∃ l₁ n l₂, c.lru_list_ = l₁ ++ n :: l₂ ∧ n.id = it ∧ n.first = k ∧
      (∀ m ∈ l₁ ++ l₂, m.id ≠ it) ∧ (∀ m ∈ l₁ ++ l₂, m.first ≠ k) := by
  obtain ⟨n, hn, hk, hi⟩ := (h.find_some k it).1 hf
  obtain ⟨l₁, l₂, hl⟩ := List.append_of_mem hn
  refine ⟨l₁, n, l₂, hl, hi, hk, ?_, ?_⟩
  · have := h.ids_nodup
    rw [hl, List.map_append, List.map_cons, List.nodup_middle, List.nodup_cons] at this
    intro m hm e
    exact this.1 (by rw [← List.map_append, hi, ← e]; exact List.mem_map_of_mem _ hm)
  · have := h.keys_nodup
    rw [hl, List.map_append, List.map_cons, List.nodup_middle, List.nodup_cons] at this
    intro m hm e
    exact this.1 (by rw [← List.map_append, hk, ← e]; exact List.mem_map_of_mem _ hm)

/-- Moving a node to the front (possibly with a new value) keeps the invariant. -/
theorem Inv.move_front {c : LRUCache} (h : Inv c) {l₁ l₂ : List Node} {n : Node}
    (hl : c.lru_list_ = l₁ ++ n :: l₂) (v : String) :
    Inv { c with lru_list_ := { n with second := v } :: (l₁ ++ l₂) } := by
  have hi := h.ids_nodup
  have hk := h.keys_nodup
  have hp := h.map_perm
  have hs := h.size_le
  rw [hl] at hi hk hp hs
  refine ⟨?_, ?_, ?_, h.cap_pos, ?_⟩
  · simpa [List.nodup_middle] using hi
  · simpa [List.nodup_middle] using hk
  · refine hp.trans ?_
    simp
  · simp only [List.length_append, List.length_cons] at hs ⊢
    omega

/-- Removing a node from the list and its key from the map keeps the invariant. -/
theorem Inv.remove {c : LRUCache} (h : Inv c) {l₁ l₂ : List Node} {n : Node}
    (hl : c.lru_list_ = l₁ ++ n :: l₂) :
    Inv { c with lru_list_ := l₁ ++ l₂, cache_map_ := c.cache_map_.erase n.first } := by
  have hi := h.ids_nodup
  have hk := h.keys_nodup
  have hp := h.map_perm
  have hs := h.size_le
  rw [hl] at hi hk hp hs
  simp only [List.map_append, List.map_cons, List.nodup_middle, List.nodup_cons] at hi hk
  refine ⟨?_, ?_, ?_, h.cap_pos, ?_⟩
  · simpa using hi.2
  · simpa using hk.2
  · have hq := hp.filter (fun e => e.1 != n.first)
    have hne : ∀ m ∈ l₁ ++ l₂, m.first ≠ n.first := by
      intro m hm e
      exact hk.1 (by rw [← List.map_append, ← e]; exact List.mem_map_of_mem _ hm)
    have h1 : (l₁.map (fun n => (n.first, n.id))).filter (fun e => e.1 != n.first)
        = l₁.map (fun n => (n.first, n.id)) :=
      List.filter_eq_self.2 (fun e he => by
        obtain ⟨m, hm, rfl⟩ := List.mem_map.1 he
        simpa using hne m (by simp [hm]))
    have h2 : (l₂.map (fun n => (n.first, n.id))).filter (fun e => e.1 != n.first)
        = l₂.map (fun n => (n.first, n.id)) :=
      List.filter_eq_self.2 (fun e he => by
        obtain ⟨m, hm, rfl⟩ := List.mem_map.1 he
        simpa using hne m (by simp [hm]))
    simp only [List.map_append, List.map_cons, List.filter_append, List.filter_cons, h1, h2,
      bne_self_eq_false, Bool.false_eq_true, if_false] at hq
    simpa [UMap.erase] using hq
  · simp only [List.length_append, List.length_cons] at hs ⊢
    omega

/-- Inserting a new key at the front keeps the invariant when there is room. -/
theorem Inv.push {c : LRUCache} (h : Inv c) {k : String} (hk : k ∉ c.keys)
    (hlt : c.lru_list_.length < c.max_size_) (v : String) :
    c.cache_map_.assign k (freshIter c.lru_list_) = (k, freshIter c.lru_list_) :: c.cache_map_ ∧
    Inv { c with lru_list_ := pushFront c.lru_list_ k v,
                 cache_map_ := c.cache_map_.assign k (freshIter c.lru_list_) } := by
  have hnone : c.cache_map_.find k = none := (h.find_none k).2 hk
  have hassign : c.cache_map_.assign k (freshIter c.lru_list_)
      = (k, freshIter c.lru_list_) :: c.cache_map_ := by
    simp [UMap.assign, hnone]
  refine ⟨hassign, ?_⟩
  rw [hassign]
  refine ⟨?_, ?_, ?_, h.cap_pos, ?_⟩
  · simp only [pushFront, List.map_cons, List.nodup_cons]
    refine ⟨?_, h.ids_nodup⟩
    intro hm
    obtain ⟨m, hm, e⟩ := List.mem_map.1 hm
    have := freshIter_gt c.lru_list_ m hm
    rw [e] at this
    exact lt_irrefl _ this
  · simp only [pushFront, List.map_cons, List.nodup_cons]
    exact ⟨hk, h.keys_nodup⟩
  · simpa [pushFront] using h.map_perm
  · simpa [pushFront] using hlt

/-! ## What each method computes on a state satisfying the invariant -/

theorem assignSecond_middle (l₁ l₂ : List Node) (n : Node) (v : String)
    (h : ∀ m ∈ l₁ ++ l₂, m.id ≠ n.id) :
    assignSecond (l₁ ++ n :: l₂) n.id v = some (l₁ ++ { n with second := v } :: l₂) := by
  have hn := nodeAt_middle l₁ l₂ n (fun m hm => h m (by simp [hm]))
  have h1 : l₁.map (fun m => if m.id = n.id then { m with second := v } else m) = l₁ := by
    conv_rhs => rw [← List.map_id l₁]
    exact List.map_congr_left (fun m hm => by simp [h m (by simp [hm])])
  have h2 : l₂.map (fun m => if m.id = n.id then { m with second := v } else m) = l₂ := by
    conv_rhs => rw [← List.map_id l₂]
    exact List.map_congr_left (fun m hm => by simp [h m (by simp [hm])])
  simp [assignSecond, hn, h1, h2]

theorem spliceBegin_middle (l₁ l₂ : List Node) (n : Node)
    (h : ∀ m ∈ l₁ ++ l₂, m.id ≠ n.id) :
    spliceBegin (l₁ ++ n :: l₂) n.id = some (n :: (l₁ ++ l₂)) := by
  have hn := nodeAt_middle l₁ l₂ n (fun m hm => h m (by simp [hm]))
  simp only [spliceBegin, hn, filter_id_middle l₁ l₂ n h]

theorem listErase_middle (l₁ l₂ : List Node) (n : Node)
    (h : ∀ m ∈ l₁ ++ l₂, m.id ≠ n.id) :
    listErase (l₁ ++ n :: l₂) n.id = some (l₁ ++ l₂) := by
  have hn := nodeAt_middle l₁ l₂ n (fun m hm => h m (by simp [hm]))
  simp only [listErase, hn, filter_id_middle l₁ l₂ n h]

/-- On a hit, `get` returns the value of the node the map points at and moves
that node to the front. -/
theorem get_hit {c : LRUCache} (h : Inv c) {k : String} {it : Iter}
    (hf : c.cache_map_.find k = some it) (out : String) :
    ∃ l₁ n l₂, c.lru_list_ = l₁ ++ n :: l₂ ∧ n.id = it ∧ n.first = k ∧
      (∀ m ∈ l₁ ++ l₂, m.first ≠ k) ∧
      c.get k out = some (true, n.second, { c with lru_list_ := n :: (l₁ ++ l₂) }) := by
  obtain ⟨l₁, n, l₂, hl, hi, hk, hid, hkey⟩ := h.hit hf
  subst hi
  refine ⟨l₁, n, l₂, hl, rfl, hk, hkey, ?_⟩
  have hs := spliceBegin_middle l₁ l₂ n hid
  have hn : nodeAt (n :: (l₁ ++ l₂)) n.id = some n := nodeAt_middle [] (l₁ ++ l₂) n (by simp)
  simp only [LRUCache.get, hf, hl, hs, hn]

/-- On a resident key, `put` overwrites the value of the node the map points
at and moves that node to the front. -/
theorem put_hit {c : LRUCache} (h : Inv c) {k : String} {it : Iter}
    (hf : c.cache_map_.find k = some it) (v : String) :
    ∃ l₁ n l₂, c.lru_list_ = l₁ ++ n :: l₂ ∧ n.id = it ∧ n.first = k ∧
      (∀ m ∈ l₁ ++ l₂, m.first ≠ k) ∧
      c.put k v = some { c with lru_list_ := { n with second := v } :: (l₁ ++ l₂) } := by
  obtain ⟨l₁, n, l₂, hl, hi, hk, hid, hkey⟩ := h.hit hf
  subst hi
  refine ⟨l₁, n, l₂, hl, rfl, hk, hkey, ?_⟩
  have ha := assignSecond_middle l₁ l₂ n v hid
  have hs := spliceBegin_middle l₁ l₂ { n with second := v } hid
  simp only [LRUCache.put, hf, hl, ha, hs]

/-- On a resident key, `erase` removes the node and the map entry. -/
theorem erase_hit {c : LRUCache} (h : Inv c) {k : String} {it : Iter}
    (hf : c.cache_map_.find k = some it) :
    ∃ l₁ n l₂, c.lru_list_ = l₁ ++ n :: l₂ ∧ n.id = it ∧ n.first = k ∧
      (∀ m ∈ l₁ ++ l₂, m.first ≠ k) ∧
      c.erase k = some { c with lru_list_ := l₁ ++ l₂, cache_map_ := c.cache_map_.erase k } := by
  obtain ⟨l₁, n, l₂, hl, hi, hk, hid, hkey⟩ := h.hit hf
  subst hi
  refine ⟨l₁, n, l₂, hl, rfl, hk, hkey, ?_⟩
  have hs := listErase_middle l₁ l₂ n hid
  simp only [LRUCache.erase, hf, hl, hs]

/-- A new key put into a cache with room is pushed at the front. -/
theorem put_new_room {c : LRUCache} (h : Inv c) {k : String}
    (hf : c.cache_map_.find k = none) (hlt : c.lru_list_.length < c.max_size_) (v : String) :
    c.put k v = some
      { c with
        lru_list_ := pushFront c.lru_list_ k v
        cache_map_ := (k, freshIter c.lru_list_) :: c.cache_map_ } := by
  have hsz : ¬ c.cache_map_.size ≥ c.max_size_ := by rw [h.size_eq]; omega
  simp [LRUCache.put, hf, hsz, UMap.assign]

/-- A new key put into a full cache evicts the back of the list first. -/
theorem put_new_full {c : LRUCache} (h : Inv c) {k : String}
    (hf : c.cache_map_.find k = none) (hfull : c.lru_list_.length = c.max_size_) (v : String) :
    ∃ init last, c.lru_list_ = init ++ [last] ∧
      c.put k v = some
        { c with
          lru_list_ := pushFront init k v
          cache_map_ := (k, freshIter init) :: c.cache_map_.erase last.first } := by
  have hsz : c.cache_map_.size ≥ c.max_size_ := by rw [h.size_eq]; omega
  have hne : c.lru_list_ ≠ [] := by
    intro e
    have := h.cap_pos
    rw [e] at hfull
    simp at hfull
    omega
  obtain ⟨init, last, hl⟩ : ∃ init last, c.lru_list_ = init ++ [last] :=
    ⟨c.lru_list_.dropLast, c.lru_list_.getLast hne, (List.dropLast_append_getLast hne).symm⟩
  refine ⟨init, last, hl, ?_⟩
  have hfe : (c.cache_map_.erase last.first).find k = none := by
    rw [UMap.find_eq_none_iff] at hf ⊢
    intro hm
    obtain ⟨e, he, rfl⟩ := List.mem_map.1 hm
    exact hf (List.mem_map.2 ⟨e, (List.mem_filter.1 he).1, rfl⟩)
  simp [LRUCache.put, hf, hsz, hl, back, popBack, UMap.assign, hfe]

/-! ## The invariant holds initially and is kept by every method -/

theorem Inv.init (max_size : Nat) : Inv (LRUCache.mk_ max_size) := by
  refine ⟨by simp [LRUCache.mk_], by simp [LRUCache.mk_], by simp [LRUCache.mk_], ?_, ?_⟩
  · simp only [LRUCache.mk_]
    split <;> omega
  · simp [LRUCache.mk_]

theorem Inv.evict_push {c : LRUCache} (h : Inv c) {k : String} (hk : k ∉ c.keys)
    {init : List Node} {last : Node} (hl : c.lru_list_ = init ++ [last]) (v : String) :
    Inv { c with
          lru_list_ := pushFront init k v
          cache_map_ := (k, freshIter init) :: c.cache_map_.erase last.first } := by
  have h1 := @Inv.remove c h init [] last hl
  simp only [List.append_nil] at h1
  have hk1 : k ∉ LRUCache.keys
      { c with lru_list_ := init, cache_map_ := c.cache_map_.erase last.first } := by
    intro hm
    apply hk
    simp only [LRUCache.keys] at hm ⊢
    rw [hl]
    simp [List.map_append, hm]
  have hlen : init.length < c.max_size_ := by
    have := h.size_le
    rw [hl] at this
    simp at this
    omega
  have h2 := (h1.push hk1 hlen v)
  rw [h2.1] at h2
  exact h2.2

theorem Inv.put {c : LRUCache} (h : Inv c) (k v : String) :
    ∃ c1, c.put k v = some c1 ∧ Inv c1 ∧ c1.max_size_ = c.max_size_ := by
  cases hf : c.cache_map_.find k with
  | some it =>
    obtain ⟨l₁, n, l₂, hl, -, -, -, hput⟩ := put_hit h hf v
    exact ⟨_, hput, h.move_front hl v, rfl⟩
  | none =>
    have hk : k ∉ c.keys := (h.find_none k).1 hf
    rcases Nat.lt_or_ge c.lru_list_.length c.max_size_ with hlt | hge
    · refine ⟨_, put_new_room h hf hlt v, ?_, rfl⟩
      have h2 := h.push hk hlt v
      rw [h2.1] at h2
      exact h2.2
    · obtain ⟨init, last, hl, hput⟩ := put_new_full h hf (le_antisymm h.size_le hge) v
      exact ⟨_, hput, h.evict_push hk hl v, rfl⟩

theorem Inv.get {c : LRUCache} (h : Inv c) (k out : String) :
    ∃ r, c.get k out = some r ∧ Inv r.2.2 ∧ r.2.2.max_size_ = c.max_size_ := by
  cases hf : c.cache_map_.find k with
  | some it =>
    obtain ⟨l₁, n, l₂, hl, -, -, -, hget⟩ := get_hit h hf out
    refine ⟨_, hget, ?_, rfl⟩
    exact h.move_front hl n.second
  | none =>
    exact ⟨(false, out, c), by simp [LRUCache.get, hf], h, rfl⟩

theorem Inv.erase {c : LRUCache} (h : Inv c) (k : String) :
    ∃ c1, c.erase k = some c1 ∧ Inv c1 ∧ c1.max_size_ = c.max_size_ := by
  cases hf : c.cache_map_.find k with
  | some it =>
    obtain ⟨l₁, n, l₂, hl, -, hk, -, her⟩ := erase_hit h hf
    refine ⟨_, her, ?_, rfl⟩
    have := h.remove hl
    rwa [hk] at this
  | none =>
    exact ⟨c, by simp [LRUCache.erase, hf], h, rfl⟩

theorem Inv.step {c : LRUCache} (h : Inv c) (op : Op) :
    ∃ c1, step c op = some c1 ∧ Inv c1 ∧ c1.max_size_ = c.max_size_ := by
  cases op with
  | put k v => exact h.put k v
  | get k =>
    obtain ⟨r, hr, hi, hm⟩ := h.get k ""
    exact ⟨r.2.2, by simp [KVServer.step, hr], hi, hm⟩
  | erase k => exact h.erase k

theorem Inv.run {c : LRUCache} (h : Inv c) (ops : List Op) :
    ∃ c1, run c ops = some c1 ∧ Inv c1 ∧ c1.max_size_ = c.max_size_ := by
  induction ops generalizing c with
  | nil => exact ⟨c, rfl, h, rfl⟩
  | cons op ops ih =>
    obtain ⟨c1, hs, hi, hm⟩ := h.step op
    obtain ⟨c2, hr, hi2, hm2⟩ := ih hi
    exact ⟨c2, by simp [KVServer.run, hs, hr], hi2, hm2.trans hm⟩

/-- Every state reached from the constructor through public calls satisfies
the invariant. -/
theorem Inv.of_reached {requested : Nat} {ops : List Op} {c : LRUCache}
    (hr : KVServer.run (LRUCache.mk_ requested) ops = some c) : Inv c := by
  obtain ⟨c1, hr1, hi, -⟩ := (Inv.init requested).run ops
  rw [hr] at hr1
  exact (Option.some.inj hr1) ▸ hi

theorem Inv.nodeAt_of_find {c : LRUCache} (h : Inv c) {k : String} {it : Iter}
    (hf : c.cache_map_.find k = some it) :
    ∃ n, nodeAt c.lru_list_ it = some n ∧ n ∈ c.lru_list_ ∧ n.first = k ∧ n.id = it := by
  obtain ⟨l₁, n, l₂, hl, hi, hk, hid, -⟩ := h.hit hf
  subst hi
  refine ⟨n, ?_, by simp [hl], hk, rfl⟩
  rw [hl]
  exact nodeAt_middle l₁ l₂ n (fun m hm => hid m (by simp [hm]))

/-- Under the invariant, the value read through the map is the value paired
with the key in the list. -/
theorem Inv.lookup_eq_some {c : LRUCache} (h : Inv c) (k v : String) :
    c.lookup k = some v ↔ (k, v) ∈ c.entries := by
  constructor
  · intro hl
    cases hf : c.cache_map_.find k with
    | none => simp [LRUCache.lookup, hf] at hl
    | some it =>
      obtain ⟨n, hn, hmem, hk, -⟩ := h.nodeAt_of_find hf
      simp only [LRUCache.lookup, hf, hn, Option.map_some', Option.some.injEq] at hl
      exact List.mem_map.2 ⟨n, hmem, by simp [hk, hl]⟩
  · intro hm
    obtain ⟨n, hn, he⟩ := List.mem_map.1 hm
    simp only [Prod.mk.injEq] at he
    have hf : c.cache_map_.find k = some n.id := (h.find_some k n.id).2 ⟨n, hn, he.1, rfl⟩
    obtain ⟨n1, hn1, hmem1, hk1, hi1⟩ := h.nodeAt_of_find hf
    have : n1 = n := List.inj_on_of_nodup_map h.ids_nodup hmem1 hn hi1
    subst this
    simp [LRUCache.lookup, hf, hn1, he.2]

theorem lookup_congr {c c1 : LRUCache} (h : Inv c) (h1 : Inv c1)
    (hp : ∀ e, e ∈ c1.entries ↔ e ∈ c.entries) (k : String) : c1.lookup k = c.lookup k := by
  apply Option.ext
  intro v
  simp only [Option.mem_def]
  rw [h.lookup_eq_some, h1.lookup_eq_some, hp]

theorem entries_filter_middle (l₁ l₂ : List Node) (n : Node)
    (hkey : ∀ m ∈ l₁ ++ l₂, m.first ≠ n.first) :
    ((l₁ ++ n :: l₂).map (fun m => (m.first, m.second))).filter (fun e => e.1 != n.first)
      = (l₁ ++ l₂).map (fun m => (m.first, m.second)) := by
  have h1 : (l₁.map (fun m => (m.first, m.second))).filter (fun e => e.1 != n.first)
      = l₁.map (fun m => (m.first, m.second)) :=
    List.filter_eq_self.2 (fun e he => by
      obtain ⟨m, hm, rfl⟩ := List.mem_map.1 he
      simpa using hkey m (by simp [hm]))
  have h2 : (l₂.map (fun m => (m.first, m.second))).filter (fun e => e.1 != n.first)
      = l₂.map (fun m => (m.first, m.second)) :=
    List.filter_eq_self.2 (fun e he => by
      obtain ⟨m, hm, rfl⟩ := List.mem_map.1 he
      simpa using hkey m (by simp [hm]))
  simp [List.filter_append, List.filter_cons, h1, h2]

theorem keys_filter_middle (l₁ l₂ : List Node) (n : Node)
    (hkey : ∀ m ∈ l₁ ++ l₂, m.first ≠ n.first) :
    ((l₁ ++ n :: l₂).map Node.first).filter (fun x => x != n.first)
      = (l₁ ++ l₂).map Node.first := by
  have h1 : (l₁.map Node.first).filter (fun x => x != n.first) = l₁.map Node.first :=
    List.filter_eq_self.2 (fun e he => by
      obtain ⟨m, hm, rfl⟩ := List.mem_map.1 he
      simpa using hkey m (by simp [hm]))
  have h2 : (l₂.map Node.first).filter (fun x => x != n.first) = l₂.map Node.first :=
    List.filter_eq_self.2 (fun e he => by
      obtain ⟨m, hm, rfl⟩ := List.mem_map.1 he
      simpa using hkey m (by simp [hm]))
  simp [List.filter_append, List.filter_cons, h1, h2]

/-- The effect of `put` on the recency order of the keys. -/
theorem put_keys {c : LRUCache} (h : Inv c) (k v : String) :
    ∃ c1, c.put k v = some c1 ∧ Inv c1 ∧ c1.max_size_ = c.max_size_ ∧
      c1.keys = if k ∈ c.keys then k :: c.keys.filter (fun x => x != k)
                else if c.keys.length = c.max_size_ then k :: c.keys.dropLast
                else k :: c.keys := by
  cases hf : c.cache_map_.find k with
  | some it =>
    obtain ⟨l₁, n, l₂, hl, -, hk, hkey, hput⟩ := put_hit h hf v
    subst hk
    have hmem : n.first ∈ c.keys := by simp [LRUCache.keys, hl]
    refine ⟨_, hput, h.move_front hl v, rfl, ?_⟩
    rw [if_pos hmem]
    simp only [LRUCache.keys, hl]
    rw [keys_filter_middle l₁ l₂ n hkey]
    simp
  | none =>
    have hk : k ∉ c.keys := (h.find_none k).1 hf
    rw [if_neg hk]
    rcases Nat.lt_or_ge c.lru_list_.length c.max_size_ with hlt | hge
    · have hne : ¬ c.keys.length = c.max_size_ := by
        simp only [LRUCache.keys, List.length_map]; omega
      rw [if_neg hne]
      refine ⟨_, put_new_room h hf hlt v, ?_, rfl, by simp [LRUCache.keys, pushFront]⟩
      have h2 := h.push hk hlt v
      rw [h2.1] at h2
      exact h2.2
    · have heq : c.lru_list_.length = c.max_size_ := le_antisymm h.size_le hge
      have hfull : c.keys.length = c.max_size_ := by
        simpa only [LRUCache.keys, List.length_map] using heq
      rw [if_pos hfull]
      obtain ⟨init, last, hl, hput⟩ := put_new_full h hf heq v
      refine ⟨_, hput, h.evict_push hk hl v, rfl, ?_⟩
      simp [LRUCache.keys, pushFront, hl, List.dropLast_concat]

/-- The effect of `put` on the resident pairs. -/
theorem put_entries {c : LRUCache} (h : Inv c) (k v : String) :
    ∃ c1, c.put k v = some c1 ∧ Inv c1 ∧ c1.max_size_ = c.max_size_ ∧
      c1.entries = if k ∈ c.keys then (k, v) :: c.entries.filter (fun e => e.1 != k)
                else if c.entries.length = c.max_size_ then (k, v) :: c.entries.dropLast
                else (k, v) :: c.entries := by
  cases hf : c.cache_map_.find k with
  | some it =>
    obtain ⟨l₁, n, l₂, hl, -, hk, hkey, hput⟩ := put_hit h hf v
    subst hk
    have hmem : n.first ∈ c.keys := by simp [LRUCache.keys, hl]
    refine ⟨_, hput, h.move_front hl v, rfl, ?_⟩
    rw [if_pos hmem]
    simp only [LRUCache.entries, hl]
    rw [entries_filter_middle l₁ l₂ n hkey]
    simp
  | none =>
    have hk : k ∉ c.keys := (h.find_none k).1 hf
    rw [if_neg hk]
    rcases Nat.lt_or_ge c.lru_list_.length c.max_size_ with hlt | hge
    · have hne : ¬ c.entries.length = c.max_size_ := by
        simp only [LRUCache.entries, List.length_map]; omega
      rw [if_neg hne]
      refine ⟨_, put_new_room h hf hlt v, ?_, rfl, by simp [LRUCache.entries, pushFront]⟩
      have h2 := h.push hk hlt v
      rw [h2.1] at h2
      exact h2.2
    · have heq : c.lru_list_.length = c.max_size_ := le_antisymm h.size_le hge
      have hfull : c.entries.length = c.max_size_ := by
        simpa only [LRUCache.entries, List.length_map] using heq
      rw [if_pos hfull]
      obtain ⟨init, last, hl, hput⟩ := put_new_full h hf heq v
      refine ⟨_, hput, h.evict_push hk hl v, rfl, ?_⟩
      simp [LRUCache.entries, pushFront, hl, List.dropLast_concat]

/-- The effect of a `get` hit on the resident pairs. -/
theorem get_entries {c : LRUCache} (h : Inv c) (k v out : String) (hm : (k, v) ∈ c.entries) :
    ∃ c1, c.get k out = some (true, v, c1) ∧ Inv c1 ∧ c1.max_size_ = c.max_size_ ∧
      c1.cache_map_ = c.cache_map_ ∧
      c1.entries = (k, v) :: c.entries.filter (fun e => e.1 != k) := by
  obtain ⟨m, hmem, he⟩ := List.mem_map.1 hm
  simp only [Prod.mk.injEq] at he
  have hf : c.cache_map_.find k = some m.id := (h.find_some k m.id).2 ⟨m, hmem, he.1, rfl⟩
  obtain ⟨l₁, n, l₂, hl, hi, hk, hkey, hget⟩ := get_hit h hf out
  have hnm : n = m := List.inj_on_of_nodup_map h.ids_nodup (by simp [hl]) hmem hi
  subst hnm
  obtain ⟨rfl, rfl⟩ := he
  refine ⟨_, hget, h.move_front hl n.second, rfl, rfl, ?_⟩
  simp only [LRUCache.entries, hl]
  rw [entries_filter_middle l₁ l₂ n hkey]
  simp

theorem keys_eq_entries (c : LRUCache) : c.keys = c.entries.map Prod.fst := by
  simp [LRUCache.keys, LRUCache.entries, List.map_map, Function.comp_def]

/-! ## The recency order of a sequence of touches -/

theorem touch_nodup {r : List String} (h : r.Nodup) (k : String) : (touch r k).Nodup := by
  simp only [touch, List.nodup_cons, List.mem_filter, not_and]
  exact ⟨fun _ => by simp, h.filter _⟩

theorem mem_touch {r : List String} {k x : String} : x ∈ touch r k ↔ x = k ∨ x ∈ r := by
  simp only [touch, List.mem_cons, List.mem_filter]
  by_cases h : x = k
  · simp [h]
  · simp [h]

theorem foldl_touch_nodup (ks : List String) {r : List String} (h : r.Nodup) :
    (ks.foldl touch r).Nodup := by
  induction ks generalizing r with
  | nil => simpa using h
  | cons a t ih => exact ih (touch_nodup h a)

theorem mem_foldl_touch (ks : List String) (r : List String) (x : String) :
    x ∈ ks.foldl touch r ↔ x ∈ ks ∨ x ∈ r := by
  induction ks generalizing r with
  | nil => simp
  | cons a t ih =>
    simp only [List.foldl_cons, ih, mem_touch, List.mem_cons]
    tauto

theorem recency_length (ks : List String) : (recency ks).length = ks.dedup.length := by
  apply List.Perm.length_eq
  unfold recency
  rw [List.perm_ext_iff_of_nodup (foldl_touch_nodup ks List.nodup_nil) (List.nodup_dedup ks)]
  intro a
  simp [mem_foldl_touch]

theorem take_filter_of_not_mem (k : String) (r : List String) (n : Nat)
    (h : k ∉ r.take n) : (r.filter (fun x => x != k)).take n = r.take n := by
  induction r generalizing n with
  | nil => simp
  | cons a t ih =>
    cases n with
    | zero => simp
    | succ n =>
      simp only [List.take_succ_cons, List.mem_cons, not_or] at h
      have ha : a ≠ k := fun e => h.1 e.symm
      simp [List.filter_cons, ha, ih n h.2]

theorem take_filter_of_mem (k : String) (r : List String) (hr : r.Nodup) (n : Nat)
    (h : k ∈ r.take (n + 1)) :
    (r.filter (fun x => x != k)).take n = (r.take (n + 1)).filter (fun x => x != k) := by
  induction r generalizing n with
  | nil => simp at h
  | cons a t ih =>
    simp only [List.nodup_cons] at hr
    by_cases ha : a = k
    · subst ha
      have h1 : t.filter (fun x => x != a) = t :=
        List.filter_eq_self.2 (fun x hx => by
          have : x ≠ a := fun e => hr.1 (e ▸ hx)
          simpa using this)
      have h2 : (t.take n).filter (fun x => x != a) = t.take n :=
        List.filter_eq_self.2 (fun x hx => by
          have : x ≠ a := fun e => hr.1 (e ▸ List.mem_of_mem_take hx)
          simpa using this)
      simp [List.filter_cons, h1, h2]
    · simp only [List.take_succ_cons, List.mem_cons] at h
      have hk : k ∈ t.take n := by
        rcases h with h | h
        · exact absurd h.symm ha
        · exact h
      cases n with
      | zero => simp at hk
      | succ n =>
        simp [List.filter_cons, ha, ih hr.2 n hk]

/-- One step of the cache on the truncated recency order. -/
theorem take_touch (r : List String) (hr : r.Nodup) (k : String) (C : Nat) (hC : 1 ≤ C) :
    (touch r k).take C =
      if k ∈ r.take C then k :: (r.take C).filter (fun x => x != k)
      else if (r.take C).length = C then k :: (r.take C).dropLast
      else k :: r.take C := by
  obtain ⟨n, rfl⟩ : ∃ n, C = n + 1 := ⟨C - 1, by omega⟩
  simp only [touch, List.take_succ_cons]
  split
  · rename_i h
    rw [take_filter_of_mem k r hr n h]
  · rename_i h
    have hn : k ∉ r.take n := fun hm => h (by
      have : r.take n = (r.take (n + 1)).take n := by simp [List.take_take]
      rw [this] at hm
      exact List.mem_of_mem_take hm)
    rw [take_filter_of_not_mem k r n hn]
    split
    · rename_i hl
      rw [List.dropLast_eq_take, hl, List.take_take]
      simp
    · rename_i hl
      have hlen : r.length ≤ n := by
        simp only [List.length_take] at hl
        omega
      rw [List.take_of_length_le hlen, List.take_of_length_le (Nat.le_succ_of_le hlen)]

theorem foldl_touch_eq (post r : List String) :
    post.foldl touch r = recency post ++ r.filter (fun x => decide (x ∉ post)) := by
  induction post generalizing r with
  | nil => simp [recency]
  | cons a t ih =>
    simp only [List.foldl_cons, recency]
    rw [ih (touch r a), ih (touch [] a)]
    simp only [touch, List.filter_nil, List.filter_cons, List.append_assoc, List.filter_filter]
    by_cases ha : a ∈ t
    · simp only [ha, not_true_eq_false, decide_False, Bool.false_eq_true, if_false,
        List.nil_append]
      congr 1
      apply List.filter_congr
      intro x _
      by_cases hx : x = a
      · simp [hx, ha]
      · simp [hx]
    · simp only [ha, not_false_eq_true, decide_True, if_true, List.singleton_append]
      congr 2
      apply List.filter_congr
      intro x _
      by_cases hx : x = a
      · simp [hx]
      · simp [hx]

/-- A key is among the first `C` of the recency order exactly when fewer than
`C` distinct keys occur after its last occurrence. -/
theorem mem_take_recency (ks : List String) (k : String) (C : Nat) :
    k ∈ (recency ks).take C ↔
      ∃ pre post, ks = pre ++ k :: post ∧ k ∉ post ∧ post.dedup.length < C := by
  have key : ∀ pre post, k ∉ post →
      recency (pre ++ k :: post)
        = recency post ++ k :: ((recency pre).filter (fun x => x != k)).filter
            (fun x => decide (x ∉ post)) := by
    intro pre post hk
    simp only [recency, List.foldl_append, List.foldl_cons]
    rw [foldl_touch_eq post]
    simp [touch, recency, List.filter_cons, hk]
  have hnot : ∀ post, k ∉ post → k ∉ recency post := by
    intro post hk hm
    simp only [recency, mem_foldl_touch, List.not_mem_nil, or_false] at hm
    exact hk hm
  constructor
  · intro hm
    have hk : k ∈ ks := by
      have := List.mem_of_mem_take hm
      simpa [recency, mem_foldl_touch] using this
    obtain ⟨post', pre', hrev, hk'⟩ := List.eq_append_cons_of_mem (List.mem_reverse.2 hk)
    have hks : ks = pre'.reverse ++ k :: post'.reverse := by
      have := congrArg List.reverse hrev
      simpa using this
    have hpost : k ∉ post'.reverse := by simpa using hk'
    refine ⟨pre'.reverse, post'.reverse, hks, hpost, ?_⟩
    rw [← recency_length]
    by_contra hge
    rw [hks, key _ _ hpost, List.take_append_of_le_length (by omega)] at hm
    exact hnot _ hpost (List.mem_of_mem_take hm)
  · rintro ⟨pre, post, rfl, hk, hlen⟩
    rw [← recency_length] at hlen
    rw [key pre post hk, List.take_append_eq_append_take]
    obtain ⟨n, hn⟩ : ∃ n, C - (recency post).length = n + 1 :=
      ⟨C - (recency post).length - 1, by omega⟩
    simp [hn]

/-- A run of `put` calls keeps the key order equal to the truncated recency order. -/
theorem runPuts_keys (C : Nat) (hC : 1 ≤ C) (ps : List (String × String)) :
    ∀ (c : LRUCache) (r : List String), Inv c → c.max_size_ = C → r.Nodup →
      c.keys = r.take C →
      ∃ c1, runPuts c ps = some c1 ∧ Inv c1 ∧ c1.max_size_ = C ∧
        c1.keys = ((ps.map Prod.fst).foldl touch r).take C := by
  induction ps with
  | nil =>
    intro c r hi hm _ hk
    exact ⟨c, rfl, hi, hm, by simpa using hk⟩
  | cons p ps ih =>
    intro c r hi hm hr hk
    obtain ⟨c1, hput, hi1, hm1, hk1⟩ := put_keys hi p.1 p.2
    have hstep : c1.keys = (touch r p.1).take C := by
      rw [hk1, take_touch r hr p.1 C hC, hk, hm]
    obtain ⟨c2, hrun, hi2, hm2, hk2⟩ :=
      ih c1 (touch r p.1) hi1 (hm1.trans hm) (touch_nodup hr _) hstep
    refine ⟨c2, ?_, hi2, hm2, by simpa using hk2⟩
    simp only [runPuts, List.map_cons, run, step, hput]
    exact hrun

theorem exampleCache_reached :
    runPuts (LRUCache.mk_ 2) [("a", "1"), ("b", "2")] = some exampleCache := by
  decide

theorem exampleCache_inv : Inv exampleCache :=
  ⟨by decide, by decide, List.Perm.refl _, by decide, by decide⟩

/-- After `put(k, v)` the value cached for `k` is `v`. -/
theorem put_lookup {c : LRUCache} (h : Inv c) (k v : String) :
    ∃ c1, c.put k v = some c1 ∧ Inv c1 ∧ c1.max_size_ = c.max_size_ ∧
      c1.lookup k = some v := by
  obtain ⟨c1, hput, hi1, hm1, he⟩ := put_entries h k v
  refine ⟨c1, hput, hi1, hm1, (hi1.lookup_eq_some k v).2 ?_⟩
  rw [he]
  split
  · simp
  · split <;> simp

theorem storeCalls_append (t₁ t₂ : List Event) :
    storeCalls (t₁ ++ t₂) = storeCalls t₁ + storeCalls t₂ := by
  simp [storeCalls, List.filter_append]

theorem acquireCalls_append (t₁ t₂ : List Event) :
    acquireCalls (t₁ ++ t₂) = acquireCalls t₁ + acquireCalls t₂ := by
  simp [acquireCalls, List.filter_append]

theorem exampleHandler_inv : Inv exampleHandler.cache_ := exampleCache_inv

/-! ## What the handler computes -/

/-- On a resident key `doGet` replies from the cache and calls neither the
pool nor the store. -/
theorem doGet_hit (h : KVHandler) (K V : String) (fail : Option String)
    (hinv : Inv h.cache_) (hres : h.cache_.lookup K = some V) :
    ∃ h1, h.doGet K fail = some
        ({ status := 200, body := [("key", K), ("value", V), ("cache", "HIT")] }, h1) ∧
      h1.trace = h.trace ∧ h1.pool_ = h.pool_ ∧ h1.table = h.table ∧ Inv h1.cache_ ∧
      h1.cache_.entries = (K, V) :: h.cache_.entries.filter (fun e => e.1 != K) := by
  obtain ⟨c1, hget, hi1, -, -, he⟩ :=
    get_entries hinv K V "" ((hinv.lookup_eq_some K V).1 hres)
  exact ⟨{ h with cache_ := c1 }, by simp [KVHandler.doGet, hget], rfl, rfl, rfl, hi1, he⟩

/-- On a key that is not resident `doGet` takes the front connection and runs
`kv_get`; what follows depends on the outcome of the statement. -/
theorem doGet_miss (h : KVHandler) (K : String) (fail : Option String)
    {pg : PGconn} {rest : List PGconn} (hconns : h.pool_.conns_ = pg :: rest)
    (hmiss : h.cache_.cache_map_.find K = none) :
    h.doGet K fail =
      match fail with
      | some err =>
        some (KVHandler.dbError err,
          { h with
            pool_ := { conns_ := rest ++ [pg] }
            trace := h.trace ++
              [Event.acquire pg, Event.exec pg (Stmt.kv_get (c_str K)), Event.release pg] })
      | none =>
        match h.table.get (c_str K) with
        | none =>
          some ({ status := 404, body := [("error", "not_found"), ("cache", "MISS")] },
            { h with
              pool_ := { conns_ := rest ++ [pg] }
              trace := h.trace ++
                [Event.acquire pg, Event.exec pg (Stmt.kv_get (c_str K)), Event.release pg] })
        | some db_value =>
          match h.cache_.put K db_value with
          | none => none
          | some cache2 =>
            some ({ status := 200,
                    body := [("key", K), ("value", db_value), ("cache", "MISS")] },
              { h with
                cache_ := cache2
                pool_ := { conns_ := rest ++ [pg] }
                trace := h.trace ++
                  [Event.acquire pg, Event.exec pg (Stmt.kv_get (c_str K)), Event.release pg] }) := by
  have hget : h.cache_.get K "" = some (false, "", h.cache_) := by
    simp [LRUCache.get, hmiss]
  cases fail with
  | some err =>
    simp [KVHandler.doGet, hget, PGPool.acquire, PGPool.release, hconns]
  | none =>
    cases hrow : h.table.get (c_str K) with
    | none => simp [KVHandler.doGet, hget, PGPool.acquire, PGPool.release, hconns, hrow]
    | some db_value =>
      cases hput : h.cache_.put K db_value with
      | none => simp [KVHandler.doGet, hget, PGPool.acquire, PGPool.release, hconns, hrow, hput]
      | some cache2 =>
        simp [KVHandler.doGet, hget, PGPool.acquire, PGPool.release, hconns, hrow, hput]

/-- The effect of `erase` on the resident pairs. -/
theorem erase_entries {c : LRUCache} (h : Inv c) (k : String) :
    ∃ c1, c.erase k = some c1 ∧ Inv c1 ∧ c1.max_size_ = c.max_size_ ∧
      c1.cache_map_.find k = none ∧
      c1.entries = c.entries.filter (fun e => e.1 != k) := by
  cases hf : c.cache_map_.find k with
  | none =>
    have hk : k ∉ c.keys := (h.find_none k).1 hf
    refine ⟨c, by simp [LRUCache.erase, hf], h, rfl, hf, ?_⟩
    symm
    apply List.filter_eq_self.2
    intro e he
    obtain ⟨m, hm, rfl⟩ := List.mem_map.1 he
    have : m.first ≠ k := fun e => hk (e ▸ List.mem_map_of_mem _ hm)
    simpa using this
  | some it =>
    obtain ⟨l₁, n, l₂, hl, -, hk, hkey, her⟩ := erase_hit h hf
    subst hk
    have hinv1 : Inv { c with lru_list_ := l₁ ++ l₂, cache_map_ := c.cache_map_.erase n.first } :=
      h.remove hl
    have hnot : n.first ∉ LRUCache.keys
        { c with lru_list_ := l₁ ++ l₂, cache_map_ := c.cache_map_.erase n.first } := by
      simp only [LRUCache.keys, List.mem_map, not_exists, not_and]
      exact fun m hm => hkey m hm
    refine ⟨_, her, hinv1, rfl, (hinv1.find_none _).2 hnot, ?_⟩
    simp only [LRUCache.entries, hl]
    rw [entries_filter_middle l₁ l₂ n hkey]

/-- A value read from the cache is the value of a resident pair, and back. -/
theorem lookup_filter_ne {c c1 : LRUCache} (h : Inv c) (h1 : Inv c1) (k : String)
    (he : c1.entries.filter (fun e => e.1 != k) = c.entries.filter (fun e => e.1 != k))
    (k1 : String) (hk1 : k1 ≠ k) : c1.lookup k1 = c.lookup k1 := by
  apply Option.ext
  intro w
  simp only [Option.mem_def]
  rw [h1.lookup_eq_some, h.lookup_eq_some]
  have e1 : (k1, w) ∈ c1.entries ↔ (k1, w) ∈ c1.entries.filter (fun e => e.1 != k) := by
    simp [List.mem_filter, hk1]
  have e2 : (k1, w) ∈ c.entries ↔ (k1, w) ∈ c.entries.filter (fun e => e.1 != k) := by
    simp [List.mem_filter, hk1]
  rw [e1, e2, he]

/-- Taking the front handle and pushing it back restores the pool. -/
theorem poolRestored_rotate {h h1 : KVHandler} {pg : PGconn} {rest : List PGconn}
    (stmt : Stmt) (hconns : h.pool_.conns_ = pg :: rest)
    (hconns1 : h1.pool_.conns_ = rest ++ [pg])
    (htrace : h1.trace = h.trace ++
      [Event.acquire pg, Event.exec pg stmt, Event.release pg]) :
    poolRestored h h1 ∧ h1.pool_.conns_.length = h.pool_.conns_.length := by
  refine ⟨⟨?_, Or.inr ⟨pg, rest, stmt, hconns, hconns1, htrace⟩⟩, ?_⟩
  · rw [hconns, hconns1]
    exact List.perm_append_singleton pg rest
  · rw [hconns, hconns1]
    simp

theorem poolRestored_same {h h1 : KVHandler} (hp : h1.pool_ = h.pool_)
    (htrace : h1.trace = h.trace) :
    poolRestored h h1 ∧ h1.pool_.conns_.length = h.pool_.conns_.length := by
  refine ⟨⟨by rw [hp], Or.inl ⟨hp, htrace⟩⟩, by rw [hp]⟩

/-- Under the invariant a key found in the map has a cached value. -/
theorem Inv.lookup_of_find {c : LRUCache} (h : Inv c) {k : String} {it : Iter}
    (hf : c.cache_map_.find k = some it) : ∃ v, c.lookup k = some v := by
  obtain ⟨n, hn, -, -, -⟩ := h.nodeAt_of_find hf
  exact ⟨n.second, by simp [LRUCache.lookup, hf, hn]⟩

theorem Inv.runPuts {c : LRUCache} (h : Inv c) (ps : List (String × String)) :
    ∃ c1, KVServer.runPuts c ps = some c1 ∧ Inv c1 ∧ c1.max_size_ = c.max_size_ :=
  h.run _

/-! ## Warm-up, the store and the pool -/

theorem Table.get_filter_ne (t : Table) (k k1 : String) (hne : k1 ≠ k) :
    Table.get (List.filter (fun row => row.1 != k) t) k1 = Table.get t k1 := by
  simp only [Table.get, List.find?_filter]
  congr 2
  funext row
  by_cases hk1 : row.1 = k1
  · have hk : row.1 ≠ k := fun e => hne (hk1.symm.trans e)
    simp [hk1, hk, hne]
  · simp [hk1]

theorem Table.get_upsert_self (t : Table) (k v : String) : (t.upsert k v).get k = some v := by
  simp [Table.get, Table.upsert]

theorem Table.get_upsert_ne (t : Table) (k v k1 : String) (hne : k1 ≠ k) :
    (t.upsert k v).get k1 = t.get k1 := by
  have h := Table.get_filter_ne t k k1 hne
  have hk : ((k, v).1 == k1) = false := by simpa using Ne.symm hne
  simp only [Table.get, Table.upsert, List.find?_cons, hk] at h ⊢
  exact h

theorem Table.get_delete_ne (t : Table) (k k1 : String) (hne : k1 ≠ k) :
    (t.delete k).get k1 = t.get k1 :=
  Table.get_filter_ne t k k1 hne

/-- A pair resident after `put(k, v)` is `(k, v)` or a pair with another key
that was resident before. -/
theorem put_entries_mem {c : LRUCache} (h : Inv c) (k v : String) :
    ∃ c1, c.put k v = some c1 ∧ Inv c1 ∧
      ∀ e ∈ c1.entries, e = (k, v) ∨ (e.1 ≠ k ∧ e ∈ c.entries) := by
  obtain ⟨c1, hput, hi1, -, he⟩ := put_entries h k v
  refine ⟨c1, hput, hi1, ?_⟩
  intro e hmem
  rw [he] at hmem
  by_cases hk : k ∈ c.keys
  · rw [if_pos hk] at hmem
    rcases List.mem_cons.1 hmem with rfl | hm
    · exact Or.inl rfl
    · have := List.mem_filter.1 hm
      exact Or.inr ⟨by simpa using this.2, this.1⟩
  · rw [if_neg hk] at hmem
    have hsub : e = (k, v) ∨ e ∈ c.entries := by
      split at hmem
      · rcases List.mem_cons.1 hmem with rfl | hm
        · exact Or.inl rfl
        · exact Or.inr (List.mem_of_mem_dropLast hm)
      · rcases List.mem_cons.1 hmem with rfl | hm
        · exact Or.inl rfl
        · exact Or.inr hm
    rcases hsub with rfl | hm
    · exact Or.inl rfl
    · refine Or.inr ⟨?_, hm⟩
      intro e1
      apply hk
      rw [keys_eq_entries, ← e1]
      exact List.mem_map_of_mem _ hm

/-- Every request without a NUL character returns and keeps the cache in
agreement with the store. -/
theorem Served.handle {h : KVHandler} (hs : Served h) (req : Request) (hp : req.plain) :
    ∃ r h1, KVServer.handle h req = some (r, h1) ∧ Served h1 := by
  obtain ⟨pg, rest, hconns⟩ := List.exists_cons_of_ne_nil hs.pool
  have hrot : rest ++ [pg] ≠ [] := by simp
  cases req with
  | get K fail =>
    have hK : c_str K = K := hp
    cases hf : h.cache_.cache_map_.find K with
    | some it =>
      obtain ⟨v, hv⟩ := hs.inv.lookup_of_find hf
      obtain ⟨h1, hget, -, hp, ht, hi1, he⟩ := doGet_hit h K v fail hs.inv hv
      refine ⟨_, h1, hget, hi1, by rw [hp]; exact hs.pool, ?_⟩
      intro e hmem
      rw [ht]
      rw [he] at hmem
      rcases List.mem_cons.1 hmem with rfl | hm
      · exact hs.agree _ ((hs.inv.lookup_eq_some K v).1 hv)
      · exact hs.agree e (List.mem_filter.1 hm).1
    | none =>
      have hget := doGet_miss h K fail hconns hf
      rw [hK] at hget
      cases fail with
      | some err => exact ⟨_, _, hget, hs.inv, hrot, hs.agree⟩
      | none =>
        cases hrow : h.table.get K with
        | none =>
          simp only [hrow] at hget
          exact ⟨_, _, hget, hs.inv, hrot, hs.agree⟩
        | some v =>
          obtain ⟨c1, hput, hi1, hmem⟩ := put_entries_mem hs.inv K v
          simp only [hrow, hput] at hget
          refine ⟨_, _, hget, hi1, hrot, ?_⟩
          intro e he
          rcases hmem e he with rfl | ⟨-, hm⟩
          · exact hrow
          · exact hs.agree e hm
  | put K V fail =>
    obtain ⟨hK, hV⟩ : c_str K = K ∧ c_str V = V := hp
    cases fail with
    | some err =>
      refine ⟨KVHandler.dbError err, { h with
          pool_ := PGPool.release { conns_ := rest } pg
          trace := h.trace ++
            [Event.acquire pg, Event.exec pg (Stmt.kv_put K V), Event.release pg] },
        by simp [KVServer.handle, KVHandler.doPut, PGPool.acquire, hconns, hK, hV], hs.inv, ?_,
        hs.agree⟩
      simp [PGPool.release]
    | none =>
      obtain ⟨c1, hput, hi1, hmem⟩ := put_entries_mem hs.inv K V
      refine ⟨{ status := 200, body := [("status", "ok"), ("key", K), ("value", V)] },
        { h with
          cache_ := c1
          pool_ := PGPool.release { conns_ := rest } pg
          table := h.table.upsert K V
          trace := h.trace ++
            [Event.acquire pg, Event.exec pg (Stmt.kv_put K V), Event.release pg] },
        by simp [KVServer.handle, KVHandler.doPut, PGPool.acquire, hconns, hput, hK, hV],
        hi1, ?_, ?_⟩
      · simp [PGPool.release]
      · intro e he
        rcases hmem e he with rfl | ⟨hne, hm⟩
        · exact Table.get_upsert_self _ _ _
        · show (h.table.upsert K V).get e.1 = some e.2
          rw [Table.get_upsert_ne _ _ _ _ hne]
          exact hs.agree e hm
  | delete K fail =>
    have hK : c_str K = K := hp
    cases fail with
    | some err =>
      refine ⟨KVHandler.dbError err, { h with
          pool_ := PGPool.release { conns_ := rest } pg
          trace := h.trace ++
            [Event.acquire pg, Event.exec pg (Stmt.kv_del K), Event.release pg] },
        by simp [KVServer.handle, KVHandler.doDelete, PGPool.acquire, hconns, hK], hs.inv, ?_,
        hs.agree⟩
      simp [PGPool.release]
    | none =>
      obtain ⟨c1, her, hi1, -, -, he⟩ := erase_entries hs.inv K
      refine ⟨{ status := 200, body := [("status", "deleted"), ("key", K)] },
        { h with
          cache_ := c1
          pool_ := PGPool.release { conns_ := rest } pg
          table := h.table.delete K
          trace := h.trace ++
            [Event.acquire pg, Event.exec pg (Stmt.kv_del K), Event.release pg] },
        by simp [KVServer.handle, KVHandler.doDelete, PGPool.acquire, hconns, her, hK],
        hi1, ?_, ?_⟩
      · simp [PGPool.release]
      · intro e hmem
        show (h.table.delete K).get e.1 = some e.2
        have hm : e ∈ c1.entries := hmem
        rw [he] at hm
        have := List.mem_filter.1 hm
        rw [Table.get_delete_ne _ _ _ (by simpa using this.2)]
        exact hs.agree e this.1

theorem Served.serve {h : KVHandler} (hs : Served h) (reqs : List Request)
    (hp : ∀ r ∈ reqs, r.plain) :
    ∃ h1, KVServer.serve h reqs = some h1 ∧ Served h1 := by
  induction reqs generalizing h with
  | nil => exact ⟨h, rfl, hs⟩
  | cons r rs ih =>
    obtain ⟨resp, h1, hh, hs1⟩ := hs.handle r (hp r (by simp))
    obtain ⟨h2, hserve, hs2⟩ := ih hs1 (fun r1 hr1 => hp r1 (by simp [hr1]))
    exact ⟨h2, by simp [KVServer.serve, hh, hserve], hs2⟩

/-- The pool keeps its handles apart: those available and those held by
callers are pairwise distinct and together number what the pool was built
with. -/
theorem poolStep_inv {N : Nat} {s s1 : PoolState} {op : PoolOp}
    (hlen : s.pool.conns_.length + s.outstanding.length = N)
    (hnd : (s.pool.conns_ ++ s.outstanding).Nodup)
    (hstep : poolStep s op = some s1) :
    s1.pool.conns_.length + s1.outstanding.length = N ∧
      (s1.pool.conns_ ++ s1.outstanding).Nodup ∧
      (s1.pool.conns_ ++ s1.outstanding).Perm (s.pool.conns_ ++ s.outstanding) := by
  cases op with
  | acquire =>
    cases hc : s.pool.conns_ with
    | nil => simp [poolStep, PGPool.acquire, hc] at hstep
    | cons c rest =>
      simp only [poolStep, PGPool.acquire, hc, Option.some.injEq] at hstep
      subst hstep
      rw [hc] at hlen hnd
      have hp : (rest ++ c :: s.outstanding).Perm (c :: rest ++ s.outstanding) :=
        List.perm_middle
      refine ⟨?_, hp.nodup_iff.2 hnd, hp⟩
      simp only [List.length_cons] at hlen ⊢
      omega
  | release c =>
    by_cases hmem : c ∈ s.outstanding
    · simp only [poolStep, hmem, if_true, Option.some.injEq] at hstep
      subst hstep
      have hp : (s.pool.conns_ ++ [c] ++ s.outstanding.erase c).Perm
          (s.pool.conns_ ++ s.outstanding) := by
        rw [List.append_assoc]
        exact (List.perm_cons_erase hmem).symm.append_left _
      refine ⟨?_, hp.nodup_iff.2 hnd, hp⟩
      have hl := hp.length_eq
      simp only [List.length_append] at hl
      simp only [PGPool.release, List.length_append]
      omega
    · simp [poolStep, hmem] at hstep

theorem poolRun_inv {N : Nat} (ops : List PoolOp) {s s1 : PoolState}
    (hlen : s.pool.conns_.length + s.outstanding.length = N)
    (hnd : (s.pool.conns_ ++ s.outstanding).Nodup)
    (hrun : poolRun s ops = some s1) :
    s1.pool.conns_.length + s1.outstanding.length = N ∧
      (s1.pool.conns_ ++ s1.outstanding).Nodup ∧
      (s1.pool.conns_ ++ s1.outstanding).Perm (s.pool.conns_ ++ s.outstanding) := by
  induction ops generalizing s with
  | nil =>
    simp only [poolRun, Option.some.injEq] at hrun
    subst hrun
    exact ⟨hlen, hnd, List.Perm.refl _⟩
  | cons op ops ih =>
    cases hstep : poolStep s op with
    | none => simp [poolRun, hstep] at hrun
    | some s2 =>
      simp only [poolRun, hstep] at hrun
      obtain ⟨hlen2, hnd2, hp2⟩ := poolStep_inv hlen hnd hstep
      obtain ⟨hlen1, hnd1, hp1⟩ := ih hlen2 hnd2 hrun
      exact ⟨hlen1, hnd1, hp1.trans hp2⟩

/-- Every prefix of an admissible sequence of pool calls is admissible. -/
theorem poolRun_take (ops : List PoolOp) (n : Nat) {s s1 : PoolState}
    (hrun : poolRun s ops = some s1) : ∃ s2, poolRun s (ops.take n) = some s2 := by
  induction ops generalizing s n with
  | nil => exact ⟨s, by simp [poolRun]⟩
  | cons op ops ih =>
    cases n with
    | zero => exact ⟨s, by simp [poolRun]⟩
    | succ n =>
      cases hstep : poolStep s op with
      | none => simp [poolRun, hstep] at hrun
      | some s2 =>
        simp only [poolRun, hstep] at hrun
        obtain ⟨s3, h3⟩ := ih n hrun
        exact ⟨s3, by simp [poolRun, hstep, h3]⟩

/-! ## Decoding of URLs and the draws of the load tester -/

theorem percentDecode_cons_of_ne {c : Char} (rest : List Char) (hc : ¬ c = '%') :
    percentDecode (c :: rest) =
      if c = '+' then ' ' :: percentDecode rest else c :: percentDecode rest := by
  conv_lhs => unfold percentDecode
  simp only [if_neg hc]

theorem hexVal_range {c : Char} {d : Nat} (h : hexVal c = some d) :
    d < 16 ∧ c.toNat ≠ 32 ∧ ¬ (9 ≤ c.toNat ∧ c.toNat ≤ 13) ∧ c.toNat ≠ 45 ∧ c.toNat ≠ 43 ∧
      c.toNat ≠ 37 := by
  unfold hexVal at h
  split at h
  · simp only [Option.some.injEq] at h; omega
  · split at h
    · simp only [Option.some.injEq] at h; omega
    · split at h
      · simp only [Option.some.injEq] at h; omega
      · simp at h

theorem sscanf_x_two_hex {x y : Char} {dx dy : Nat} (hx : hexVal x = some dx)
    (hy : hexVal y = some dy) : sscanf_x [x, y] = some ((16 * dx + dy : Nat) : Int) := by
  obtain ⟨-, h32, h9, h45, h43, -⟩ := hexVal_range hx
  have hsp : isSpace x = false := by
    simp only [isSpace, Bool.or_eq_false_iff, decide_eq_false_iff_not, Bool.and_eq_false_iff,
      not_le]
    exact ⟨h32, by omega⟩
  simp [sscanf_x, List.dropWhile, hsp, h45, h43, hx, hy, scanHexDigits]

theorem toChar_byte (n : Nat) (h : n < 256) : toChar (n : Int) = Char.ofNat n := by
  unfold toChar
  congr 1
  omega

theorem EachPercentEscaped.tail {c : Char} {rest : List Char}
    (h : EachPercentEscaped (c :: rest)) : EachPercentEscaped rest := by
  intro i hi hp
  have := h (i + 1) (by simpa using hi) (by simpa using hp)
  simpa using this

theorem EachPercentEscaped.percent {rest : List Char}
    (h : EachPercentEscaped ('%' :: rest)) :
    ∃ x y rest2 dx dy, rest = x :: y :: rest2 ∧ hexVal x = some dx ∧ hexVal y = some dy ∧
      EachPercentEscaped rest2 := by
  have h0 := h 0 (by simp) (by simp)
  match rest, h, h0 with
  | [], _, h0 => simp at h0
  | [x], _, h0 => simp at h0
  | x :: y :: rest2, h, h0 =>
    simp only [zero_add, List.getElem?_cons_succ, List.getElem?_cons_zero, Option.some_bind,
      Option.isSome_iff_exists] at h0
    obtain ⟨⟨dx, hx⟩, ⟨dy, hy⟩⟩ := h0
    exact ⟨x, y, rest2, dx, dy, rfl, hx, hy, h.tail.tail.tail⟩

/-- On a string where every `%` is followed by two hexadecimal digits the loop
of `url_decode` computes the reference decoding, whatever `ii` holds. -/
theorem url_decode_from_eq (n : Nat) :
    ∀ (l : List Char) (ii : Option Int), l.length ≤ n → EachPercentEscaped l →
      url_decode_from ii l = some (percentDecode l) ∧
        (percentDecode l).length + 2 * l.count '%' = l.length := by
  induction n with
  | zero =>
    intro l ii hlen _
    have : l = [] := List.length_eq_zero.1 (Nat.le_zero.1 hlen)
    subst this
    simp [url_decode_from, percentDecode]
  | succ n ih =>
    intro l ii hlen hesc
    cases l with
    | nil => simp [url_decode_from, percentDecode]
    | cons c rest =>
      have hlen1 : rest.length ≤ n := by simpa using hlen
      by_cases hc : c = '%'
      · subst hc
        obtain ⟨x, y, rest2, dx, dy, rfl, hx, hy, hesc2⟩ := hesc.percent
        have hdx := (hexVal_range hx).1
        have hdy := (hexVal_range hy).1
        obtain ⟨e1, e2⟩ := ih rest2 (some ((16 * dx + dy : Nat) : Int))
          (by simp only [List.length_cons] at hlen1; omega) hesc2
        have hx37 : x ≠ '%' := fun e => (hexVal_range hx).2.2.2.2.2 (by rw [e]; rfl)
        have hy37 : y ≠ '%' := fun e => (hexVal_range hy).2.2.2.2.2 (by rw [e]; rfl)
        constructor
        · simp only [url_decode_from, if_true, List.take, sscanf_x_two_hex hx hy, e1,
            Option.map_some', percentDecode, hx, hy, Option.getD_some,
            toChar_byte (16 * dx + dy) (by omega)]
        · simp only [percentDecode, if_true, List.length_cons, List.count_cons_self]
          rw [List.count_cons_of_ne (Ne.symm hx37), List.count_cons_of_ne (Ne.symm hy37)]
          omega
      · obtain ⟨e1, e2⟩ := ih rest ii hlen1 hesc.tail
        by_cases hp : c = '+'
        · subst hp
          constructor
          · simp [url_decode_from, percentDecode_cons_of_ne rest hc, e1]
          · rw [percentDecode_cons_of_ne rest hc, List.count_cons_of_ne (by decide)]
            simp only [if_true, List.length_cons]
            omega
        · constructor
          · simp [url_decode_from, percentDecode_cons_of_ne rest hc, hc, hp, e1]
          · rw [percentDecode_cons_of_ne rest hc, List.count_cons_of_ne (Ne.symm hc)]
            simp only [if_neg hp, List.length_cons]
            omega

theorem percentDecode_plain (l : List Char) (h1 : '%' ∉ l) (h2 : '+' ∉ l) :
    percentDecode l = l := by
  induction l with
  | nil => rfl
  | cons c rest ih =>
    simp only [List.mem_cons, not_or] at h1 h2
    have hc : ¬ c = '%' := fun e => h1.1 e.symm
    have hp : ¬ c = '+' := fun e => h2.1 e.symm
    simp [percentDecode_cons_of_ne rest hc, hp, ih h1.2 h2.2]

theorem drawsBelow_eq (a b n : Nat) :
    LoadTester.drawsBelow n a b LoadTester.Method.GET = min a n ∧
      LoadTester.drawsBelow n a b LoadTester.Method.PUT = min (a + b) n - min a n ∧
      LoadTester.drawsBelow n a b LoadTester.Method.DELETE = n - min (a + b) n := by
  induction n with
  | zero => simp [LoadTester.drawsBelow]
  | succ n ih =>
    obtain ⟨h1, h2, h3⟩ := ih
    simp only [LoadTester.drawsBelow, List.range_succ, List.filter_append,
      List.length_append] at h1 h2 h3 ⊢
    rw [h1, h2, h3]
    by_cases ha : n < a
    · have e : LoadTester.chooseMethod (a : Int) (b : Int) (Int.ofNat n)
          = LoadTester.Method.GET := by
        simp [LoadTester.chooseMethod, LoadTester.GET_THRESHOLD, ha]
      simp only [List.filter_cons, e, List.filter_nil]
      simp
      omega
    · by_cases hb : n < a + b
      · have e : LoadTester.chooseMethod (a : Int) (b : Int) (Int.ofNat n)
            = LoadTester.Method.PUT := by
          have hb2 : (n : Int) < (a : Int) + (b : Int) := by exact_mod_cast hb
          simp [LoadTester.chooseMethod, LoadTester.GET_THRESHOLD, LoadTester.PUT_THRESHOLD,
            ha, hb2]
        simp only [List.filter_cons, e, List.filter_nil]
        simp
        omega
      · have e : LoadTester.chooseMethod (a : Int) (b : Int) (Int.ofNat n)
            = LoadTester.Method.DELETE := by
          have hb2 : ¬ (n : Int) < (a : Int) + (b : Int) := by exact_mod_cast hb
          simp [LoadTester.chooseMethod, LoadTester.GET_THRESHOLD, LoadTester.PUT_THRESHOLD,
            ha, hb2]
        simp only [List.filter_cons, e, List.filter_nil]
        simp
        omega

/-- The split of the 100 draws for percentages in range: the GET share is as
configured, the PUT share is cut where the two percentages exceed 100. -/
theorem draws_eq (a b : Nat) (ha : a ≤ 100) :
    LoadTester.draws a b LoadTester.Method.GET = a ∧
      LoadTester.draws a b LoadTester.Method.PUT = min (a + b) 100 - a ∧
      LoadTester.draws a b LoadTester.Method.DELETE = 100 - min (a + b) 100 := by
  obtain ⟨h1, h2, h3⟩ := drawsBelow_eq a b 100
  simp only [LoadTester.draws]
  rw [h1, h2, h3, min_eq_left ha]
  exact ⟨rfl, rfl, rfl⟩

theorem readPercent_range (dflt : Int) (h : 0 ≤ dflt ∧ dflt ≤ 100) (env : LoadTester.EnvValue) :
    0 ≤ LoadTester.readPercent dflt env ∧ LoadTester.readPercent dflt env ≤ 100 := by
  cases env with
  | unset => exact h
  | invalid => exact h
  | parsed n =>
    simp only [LoadTester.readPercent]
    split
    · exact h
    · omega

/-- C1: for every capacity `C ≥ 1` and every sequence of `put` calls applied to
an empty cache that mentions more than `C` distinct keys, all calls return and
the cache afterwards holds exactly `C` entries (in the map and in the list),
pairwise distinct, and a key is resident exactly when fewer than `C` distinct
keys are put after its last put, that is, when it is one of the `C` distinct
keys whose last put is most recent. -/
theorem C1_capacity_invariant (C : Nat) (hC : 1 ≤ C) (ps : List (String × String))
    (hmore : C < (ps.map Prod.fst).dedup.length) :
    ∃ c, runPuts (LRUCache.mk_ C) ps = some c ∧
      c.cache_map_.size = C ∧ c.lru_list_.length = C ∧ c.keys.Nodup ∧
      (∀ k, k ∈ c.keys ↔ c.cache_map_.find k ≠ none) ∧
      (∀ k, c.cache_map_.find k ≠ none ↔
        ∃ pre post, ps.map Prod.fst = pre ++ k :: post ∧ k ∉ post ∧ post.dedup.length < C) := by
  have hmax : (LRUCache.mk_ C).max_size_ = C := by
    simp only [LRUCache.mk_]
    split <;> omega
  obtain ⟨c, hrun, hi, -, hk⟩ :=
    runPuts_keys C hC ps (LRUCache.mk_ C) [] (Inv.init C) hmax List.nodup_nil
      (by simp [LRUCache.keys, LRUCache.mk_])
  have hkeys : c.keys = (recency (ps.map Prod.fst)).take C := hk
  have hlen : c.lru_list_.length = C := by
    have := congrArg List.length hkeys
    rw [List.length_take, recency_length] at this
    simp only [LRUCache.keys, List.length_map] at this
    omega
  have hmem : ∀ k, k ∈ c.keys ↔ c.cache_map_.find k ≠ none := by
    intro k
    rw [Ne, hi.find_none, not_not]
  refine ⟨c, hrun, by rw [hi.size_eq, hlen], hlen, hi.keys_nodup, hmem, ?_⟩
  intro k
  rw [← hmem, hkeys, mem_take_recency]

theorem C1_capacity_invariant_witness :
    ∃ c, runPuts (LRUCache.mk_ 2) [("a", "1"), ("b", "2"), ("a", "3"), ("c", "4")] = some c ∧
      c.cache_map_.size = 2 ∧ c.lru_list_.length = 2 := by
  obtain ⟨c, h1, h2, h3, -⟩ := C1_capacity_invariant 2 (by decide)
    [("a", "1"), ("b", "2"), ("a", "3"), ("c", "4")] (by decide)
  exact ⟨c, h1, h2, h3⟩

/-- C2: for every requested capacity (0 being coerced to 1) and every finite
sequence of put, get and erase calls from a freshly constructed cache, after
each call (that is, after every prefix of the sequence) the calls have all
returned and the number of resident entries, counted in the map or in the
list, is at most the effective capacity. -/
theorem C2_size_le_capacity (requested : Nat) (ops : List Op) (n : Nat) :
    ∃ c, run (LRUCache.mk_ requested) (ops.take n) = some c ∧
      c.max_size_ = (if requested = 0 then 1 else requested) ∧
      c.cache_map_.size ≤ c.max_size_ ∧ c.lru_list_.length ≤ c.max_size_ := by
  obtain ⟨c, hr, hi, hm⟩ := (Inv.init requested).run (ops.take n)
  refine ⟨c, hr, by rw [hm]; rfl, ?_, hi.size_le⟩
  rw [hi.size_eq]
  exact hi.size_le

/-- C3: after every sequence of put, get and erase calls from a fresh cache,
the key set of `cache_map_` equals the set of keys in `lru_list_`, no key
occurs twice in `lru_list_` (nor in `cache_map_`), the iterator recorded in
`cache_map_` for a key designates a node of the list carrying that key, and
every node of the list is the one recorded for its key. -/
theorem C3_map_list_bijection (requested : Nat) (ops : List Op) :
    ∃ c, run (LRUCache.mk_ requested) ops = some c ∧
      (∀ k, k ∈ c.cache_map_.map Prod.fst ↔ k ∈ c.lru_list_.map Node.first) ∧
      (c.lru_list_.map Node.first).Nodup ∧
      (c.cache_map_.map Prod.fst).Nodup ∧
      (∀ k it, c.cache_map_.find k = some it →
        ∃ node, nodeAt c.lru_list_ it = some node ∧ node ∈ c.lru_list_ ∧ node.first = k) ∧
      (∀ node ∈ c.lru_list_, c.cache_map_.find node.first = some node.id) ∧
      c.cache_map_.size = c.lru_list_.length := by
  obtain ⟨c, hr, hi, -⟩ := (Inv.init requested).run ops
  refine ⟨c, hr, fun k => hi.map_keys_perm.mem_iff, hi.keys_nodup, hi.map_keys_nodup, ?_, ?_,
    hi.size_eq⟩
  · intro k it hf
    obtain ⟨n, hn, hmem, hk, -⟩ := hi.nodeAt_of_find hf
    exact ⟨n, hn, hmem, hk⟩
  · intro node hn
    exact (hi.find_some node.first node.id).2 ⟨node, hn, rfl, rfl⟩

/-- C4: in every cache state satisfying the class invariant in which key `k` is
resident with value `v`, `get(k)` returns true and writes `v` to `value_out`;
afterwards `k` is at the front of `lru_list_`, the map is untouched, every key
has the value it had, the resident pairs are the same, and the other keys
keep their relative order. -/
theorem C4_get_hit (c : LRUCache) (hinv : Inv c) (k v out : String)
    (hres : c.lookup k = some v) :
    ∃ c1, c.get k out = some (true, v, c1) ∧ Inv c1 ∧
      c1.entries.head? = some (k, v) ∧
      c1.cache_map_ = c.cache_map_ ∧ c1.max_size_ = c.max_size_ ∧
      (∀ k1, c1.lookup k1 = c.lookup k1) ∧
      c1.entries.Perm c.entries ∧
      c1.entries.filter (fun e => e.1 != k) = c.entries.filter (fun e => e.1 != k) := by
  cases hf : c.cache_map_.find k with
  | none => simp [LRUCache.lookup, hf] at hres
  | some it =>
    obtain ⟨l₁, n, l₂, hl, hi, hk, hkey, hget⟩ := get_hit hinv hf out
    have hnode : nodeAt c.lru_list_ it = some n := by
      obtain ⟨l₁, n1, l₂, hl1, hi1, -, hid1, -⟩ := hinv.hit hf
      obtain ⟨n2, hn2, hmem2, -, hi2⟩ := hinv.nodeAt_of_find hf
      have : n2 = n := List.inj_on_of_nodup_map hinv.ids_nodup hmem2 (by simp [hl]) (hi2.trans hi.symm)
      rw [← this]; exact hn2
    have hv : n.second = v := by
      simpa [LRUCache.lookup, hf, hnode] using hres
    have hinv1 : Inv { c with lru_list_ := n :: (l₁ ++ l₂) } := hinv.move_front hl n.second
    have hperm : LRUCache.entries { c with lru_list_ := n :: (l₁ ++ l₂) } |>.Perm c.entries := by
      simp only [LRUCache.entries, hl]
      exact (List.perm_middle.symm).map _
    subst hk
    refine ⟨_, by rw [hget, hv], hinv1, by simp [LRUCache.entries, hv], rfl, rfl, ?_, hperm, ?_⟩
    · exact lookup_congr hinv hinv1 (fun e => hperm.mem_iff)
    · simp only [LRUCache.entries, hl]
      rw [entries_filter_middle l₁ l₂ n hkey]
      have := entries_filter_middle [] (l₁ ++ l₂) n (by simpa using hkey)
      simpa using this

theorem C4_get_hit_witness :
    ∃ c1, exampleCache.get "a" "" = some (true, "1", c1) ∧
      c1.entries.head? = some ("a", "1") ∧ c1.entries.Perm exampleCache.entries := by
  obtain ⟨c1, h1, -, h2, -, -, -, h3, -⟩ :=
    C4_get_hit exampleCache exampleCache_inv "a" "1" "" (by decide)
  exact ⟨c1, h1, h2, h3⟩

/-- C5: in every cache state, for every key `k` that is not resident,
`get(k)` returns false and leaves the map, the list and the caller's
`value_out` exactly as they were. -/
theorem C5_get_miss (c : LRUCache) (k out : String) (hmiss : c.cache_map_.find k = none) :
    c.get k out = some (false, out, c) := by
  simp [LRUCache.get, hmiss]

theorem C5_get_miss_witness : exampleCache.get "z" "old" = some (false, "old", exampleCache) :=
  C5_get_miss exampleCache "z" "old" (by decide)

/-- C6: in every cache state satisfying the class invariant in which key `k`
is resident, `put(k, v)` returns, leaves the map (hence the set of resident
keys and their number) unchanged even when the cache is full, sets the value
of `k` to `v`, moves `k` to the front, and leaves the value of every other key
and the relative order of the other keys unchanged. -/
theorem C6_put_existing (c : LRUCache) (hinv : Inv c) (k v : String)
    (hres : c.cache_map_.find k ≠ none) :
    ∃ c1, c.put k v = some c1 ∧ Inv c1 ∧
      c1.cache_map_ = c.cache_map_ ∧ c1.max_size_ = c.max_size_ ∧
      c1.lru_list_.length = c.lru_list_.length ∧
      c1.keys.Perm c.keys ∧
      c1.lookup k = some v ∧
      c1.entries.head? = some (k, v) ∧
      (∀ k1, k1 ≠ k → c1.lookup k1 = c.lookup k1) ∧
      c1.entries.filter (fun e => e.1 != k) = c.entries.filter (fun e => e.1 != k) := by
  cases hf : c.cache_map_.find k with
  | none => exact absurd hf hres
  | some it =>
    obtain ⟨l₁, n, l₂, hl, -, hk, hkey, hput⟩ := put_hit hinv hf v
    subst hk
    have hinv1 : Inv { c with lru_list_ := { n with second := v } :: (l₁ ++ l₂) } :=
      hinv.move_front hl v
    refine ⟨_, hput, hinv1, rfl, rfl, ?_, ?_, ?_, ?_, ?_, ?_⟩
    · simp only [hl, List.length_cons, List.length_append]; omega
    · simp only [LRUCache.keys, hl, List.map_cons, List.map_append]
      exact List.perm_middle.symm
    · exact (hinv1.lookup_eq_some _ _).2 (by simp [LRUCache.entries])
    · simp [LRUCache.entries]
    · intro k1 hk1
      apply Option.ext
      intro w
      simp only [Option.mem_def]
      rw [hinv1.lookup_eq_some, hinv.lookup_eq_some]
      simp [LRUCache.entries, hl, hk1]
    · simp only [LRUCache.entries, hl]
      rw [entries_filter_middle l₁ l₂ n hkey]
      have := entries_filter_middle [] (l₁ ++ l₂) { n with second := v } (by simpa using hkey)
      simpa using this

theorem C6_put_existing_witness :
    ∃ c1, exampleCache.put "a" "9" = some c1 ∧ c1.cache_map_ = exampleCache.cache_map_ ∧
      c1.lookup "a" = some "9" ∧ c1.lookup "b" = exampleCache.lookup "b" := by
  obtain ⟨c1, h1, -, h2, -, -, -, h3, -, h4, -⟩ :=
    C6_put_existing exampleCache exampleCache_inv "a" "9" (by decide)
  exact ⟨c1, h1, h2, h3, h4 "b" (by decide)⟩

/-- C7: in every cache state satisfying the class invariant, for every key `k`
that is not resident, `put(k, v)` returns and inserts `(k, v)` at the front.
If the cache held exactly `max_size_` entries, exactly the entry at the back
of the list is removed, from the list and from the map, and the size stays the
same; if it held fewer, nothing is removed and the size grows by one.  In
particular putting pairwise distinct keys `A`, `B`, `C` in that order into an
empty cache of capacity 2 leaves exactly `B` and `C` resident. -/
theorem C7_put_new :
    (∀ (c : LRUCache) (k v : String), Inv c → c.cache_map_.find k = none →
      ∃ c1, c.put k v = some c1 ∧ Inv c1 ∧ c1.lookup k = some v ∧
        (c.cache_map_.size = c.max_size_ →
          ∃ init last, c.entries = init ++ [last] ∧ c1.entries = (k, v) :: init ∧
            c1.cache_map_.find last.1 = none ∧ last.1 ∉ c1.keys ∧
            (∀ k1, k1 ≠ k → k1 ≠ last.1 → c1.lookup k1 = c.lookup k1) ∧
            c1.cache_map_.size = c.cache_map_.size) ∧
        (c.cache_map_.size < c.max_size_ →
          c1.entries = (k, v) :: c.entries ∧
            (∀ k1, k1 ≠ k → c1.lookup k1 = c.lookup k1) ∧
            c1.cache_map_.size = c.cache_map_.size + 1)) ∧
    (∀ (A B C vA vB vC : String), A ≠ B → A ≠ C → B ≠ C →
      ∃ c, runPuts (LRUCache.mk_ 2) [(A, vA), (B, vB), (C, vC)] = some c ∧
        c.entries = [(C, vC), (B, vB)] ∧
        (∀ k, c.cache_map_.find k ≠ none ↔ k = B ∨ k = C)) := by
  constructor
  · intro c k v hinv hf
    have hk : k ∉ c.keys := (hinv.find_none k).1 hf
    rcases Nat.lt_or_ge c.lru_list_.length c.max_size_ with hlt | hge
    · have hinv1 : Inv { c with
          lru_list_ := pushFront c.lru_list_ k v
          cache_map_ := (k, freshIter c.lru_list_) :: c.cache_map_ } := by
        have h2 := hinv.push hk hlt v
        rw [h2.1] at h2
        exact h2.2
      refine ⟨_, put_new_room hinv hf hlt v, hinv1, ?_, ?_, ?_⟩
      · exact (hinv1.lookup_eq_some _ _).2 (by simp [LRUCache.entries, pushFront])
      · intro hsz
        rw [hinv.size_eq] at hsz
        omega
      · intro _
        refine ⟨by simp [LRUCache.entries, pushFront], ?_, by simp [UMap.size]⟩
        intro k1 hk1
        apply Option.ext
        intro w
        simp only [Option.mem_def]
        rw [hinv1.lookup_eq_some, hinv.lookup_eq_some]
        simp [LRUCache.entries, pushFront, hk1]
    · have heq : c.lru_list_.length = c.max_size_ := le_antisymm hinv.size_le hge
      obtain ⟨init, last, hl, hput⟩ := put_new_full hinv hf heq v
      have hinv1 := hinv.evict_push hk hl v
      have hlast : ∀ m ∈ init, m.first ≠ last.first := by
        have := hinv.keys_nodup
        rw [hl, List.map_append, List.nodup_append] at this
        intro m hm e
        exact this.2.2 (List.mem_map_of_mem _ hm) (by simp [e])
      have hklast : k ≠ last.first := by
        intro e
        exact hk (by simp [LRUCache.keys, hl, e])
      have hnot : last.first ∉ LRUCache.keys { c with
          lru_list_ := pushFront init k v
          cache_map_ := (k, freshIter init) :: c.cache_map_.erase last.first } := by
        simp only [LRUCache.keys, pushFront, List.map_cons, List.mem_cons, List.mem_map, not_or,
          not_exists, not_and]
        exact ⟨fun e => hklast e.symm, fun m hm => hlast m hm⟩
      refine ⟨_, hput, hinv1, ?_, ?_, ?_⟩
      · exact (hinv1.lookup_eq_some _ _).2 (by simp [LRUCache.entries, pushFront])
      · intro _
        refine ⟨init.map (fun m => (m.first, m.second)), (last.first, last.second),
          by simp [LRUCache.entries, hl], by simp [LRUCache.entries, pushFront],
          (hinv1.find_none _).2 hnot, hnot, ?_, ?_⟩
        · intro k1 hk1 hk2
          apply Option.ext
          intro w
          simp only [Option.mem_def]
          rw [hinv1.lookup_eq_some, hinv.lookup_eq_some]
          simp [LRUCache.entries, pushFront, hl, hk1, hk2]
        · rw [hinv1.size_eq, hinv.size_eq, hl]
          simp [pushFront]
      · intro hsz
        rw [hinv.size_eq] at hsz
        omega
  · intro A B C vA vB vC hAB hAC hBC
    have hBA := Ne.symm hAB
    have hCA := Ne.symm hAC
    have hCB := Ne.symm hBC
    simp [runPuts, run, step, LRUCache.put, LRUCache.mk_, UMap.find, UMap.size, UMap.assign,
      UMap.erase, back, popBack, pushFront, freshIter, LRUCache.entries, List.find?_cons,
      hAB, hAC, hBC, hBA, hCA, hCB]
    intro k
    constructor
    · rintro ⟨x, ⟨h, -⟩ | ⟨h, -⟩⟩
      · exact Or.inr h
      · exact Or.inl h
    · rintro (h | h)
      · exact ⟨2, Or.inr ⟨h, rfl⟩⟩
      · exact ⟨3, Or.inl ⟨h, rfl⟩⟩

theorem C7_put_new_witness :
    (∃ c1, exampleCache.put "c" "3" = some c1 ∧ c1.lookup "c" = some "3") ∧
    (∃ c, runPuts (LRUCache.mk_ 2) [("A", "1"), ("B", "2"), ("C", "3")] = some c ∧
      c.entries = [("C", "3"), ("B", "2")]) := by
  constructor
  · obtain ⟨c1, h1, -, h2, -⟩ := C7_put_new.1 exampleCache "c" "3" exampleCache_inv (by decide)
    exact ⟨c1, h1, h2⟩
  · obtain ⟨c, h1, h2, -⟩ :=
      C7_put_new.2 "A" "B" "C" "1" "2" "3" (by decide) (by decide) (by decide)
    exact ⟨c, h1, h2⟩

/-- C8: in every cache state satisfying the class invariant, `erase(k)`
returns; it changes nothing when `k` is absent, and otherwise removes `k` from
the map and from the list.  In both cases the list afterwards is the list
before without `k` (same pairs, same order), every other key keeps its value,
and a following `get(k)` is a miss. -/
theorem C8_erase (c : LRUCache) (hinv : Inv c) (k : String) :
    ∃ c1, c.erase k = some c1 ∧ Inv c1 ∧
      (c.cache_map_.find k = none → c1 = c) ∧
      c1.cache_map_.find k = none ∧ k ∉ c1.keys ∧
      c1.entries = c.entries.filter (fun e => e.1 != k) ∧
      (∀ k1, k1 ≠ k → c1.cache_map_.find k1 = c.cache_map_.find k1) ∧
      (∀ k1, k1 ≠ k → c1.lookup k1 = c.lookup k1) ∧
      (∀ out, c1.get k out = some (false, out, c1)) := by
  cases hf : c.cache_map_.find k with
  | none =>
    have hk : k ∉ c.keys := (hinv.find_none k).1 hf
    refine ⟨c, by simp [LRUCache.erase, hf], hinv, fun _ => rfl, hf, hk, ?_, fun _ _ => rfl,
      fun _ _ => rfl, fun out => by simp [LRUCache.get, hf]⟩
    symm
    apply List.filter_eq_self.2
    intro e he
    obtain ⟨m, hm, rfl⟩ := List.mem_map.1 he
    have : m.first ≠ k := fun e => hk (e ▸ List.mem_map_of_mem _ hm)
    simpa using this
  | some it =>
    obtain ⟨l₁, n, l₂, hl, -, hk, hkey, her⟩ := erase_hit hinv hf
    subst hk
    have hinv1 : Inv { c with lru_list_ := l₁ ++ l₂, cache_map_ := c.cache_map_.erase n.first } :=
      hinv.remove hl
    have hnot : n.first ∉ LRUCache.keys
        { c with lru_list_ := l₁ ++ l₂, cache_map_ := c.cache_map_.erase n.first } := by
      simp only [LRUCache.keys, List.mem_map, not_exists, not_and]
      exact fun m hm => hkey m hm
    have hnone := (hinv1.find_none _).2 hnot
    refine ⟨_, her, hinv1, fun h => by simp at h, hnone, hnot, ?_, ?_, ?_, ?_⟩
    · simp only [LRUCache.entries, hl]
      rw [entries_filter_middle l₁ l₂ n hkey]
    · intro k1 hk1
      apply Option.ext
      intro i
      simp only [Option.mem_def]
      rw [hinv1.find_some, hinv.find_some, hl]
      constructor
      · rintro ⟨m, hm, h1, h2⟩
        exact ⟨m, by simp only [List.mem_append, List.mem_cons] at hm ⊢; tauto, h1, h2⟩
      · rintro ⟨m, hm, h1, h2⟩
        refine ⟨m, ?_, h1, h2⟩
        simp only [List.mem_append, List.mem_cons] at hm ⊢
        rcases hm with hm | rfl | hm
        · exact Or.inl hm
        · exact absurd h1.symm hk1
        · exact Or.inr hm
    · intro k1 hk1
      apply Option.ext
      intro w
      simp only [Option.mem_def]
      rw [hinv1.lookup_eq_some, hinv.lookup_eq_some]
      simp [LRUCache.entries, hl, hk1]
    · intro out
      simp [LRUCache.get, hnone]

theorem C8_erase_witness :
    ∃ c1, exampleCache.erase "a" = some c1 ∧ c1.cache_map_.find "a" = none ∧
      c1.entries = exampleCache.entries.filter (fun e => e.1 != "a") := by
  obtain ⟨c1, h1, -, -, h2, -, h3, -⟩ := C8_erase exampleCache exampleCache_inv "a"
  exact ⟨c1, h1, h2, h3⟩

/-- C9: in a cache of capacity 2 satisfying the class invariant whose resident
pairs are `(B, vB)` (most recently used) and `(A, vA)` (least recently used),
for every key `C` distinct from both, `get(A)` is a hit returning `vA` and the
following `put(C, v)` leaves exactly `A` and `C` resident, `C` in front: `B` is
evicted, not `A`. -/
theorem C9_read_promotes (c : LRUCache) (hinv : Inv c) (A B C vA vB v out : String)
    (hcap : c.max_size_ = 2) (hent : c.entries = [(B, vB), (A, vA)])
    (hCA : C ≠ A) (hCB : C ≠ B) :
    ∃ c1 c2, c.get A out = some (true, vA, c1) ∧ c1.put C v = some c2 ∧
      c2.entries = [(C, v), (A, vA)] ∧
      c2.cache_map_.find B = none ∧
      (∀ k, c2.cache_map_.find k ≠ none ↔ k = A ∨ k = C) := by
  have hAB : A ≠ B := by
    have := hinv.keys_nodup
    rw [show c.lru_list_.map Node.first = c.keys from rfl, keys_eq_entries, hent] at this
    intro e
    simp [e] at this
  obtain ⟨c1, hget, hi1, hm1, -, he1⟩ := get_entries hinv A vA out (by simp [hent])
  have e1 : c1.entries = [(A, vA), (B, vB)] := by
    rw [he1, hent]
    simp [Ne.symm hAB]
  obtain ⟨c2, hput, hi2, hm2, he2⟩ := put_entries hi1 C v
  have e2 : c2.entries = [(C, v), (A, vA)] := by
    rw [he2, keys_eq_entries, e1, hm1, hcap]
    simp [hCA, hCB]
  have k2 : c2.keys = [C, A] := by rw [keys_eq_entries, e2]; rfl
  refine ⟨c1, c2, hget, hput, e2, ?_, ?_⟩
  · rw [hi2.find_none, k2]
    simp [Ne.symm hCB, Ne.symm hAB]
  · intro k
    rw [Ne, hi2.find_none, k2]
    simp only [List.mem_cons, List.not_mem_nil, or_false, not_not]
    exact or_comm

theorem C9_read_promotes_witness :
    ∃ c1 c2, exampleCache.get "a" "" = some (true, "1", c1) ∧ c1.put "c" "3" = some c2 ∧
      c2.entries = [("c", "3"), ("a", "1")] ∧ c2.cache_map_.find "b" = none := by
  obtain ⟨c1, c2, h1, h2, h3, h4, -⟩ :=
    C9_read_promotes exampleCache exampleCache_inv "a" "b" "c" "1" "2" "3" "" rfl (by decide)
      (by decide) (by decide)
  exact ⟨c1, c2, h1, h2, h3, h4⟩

/-- C10: in the sequential model of `KVHandler` over a store stub that records
its calls, whenever key `K` is resident in the cache with value `V`, `doGet(K)`
replies 200 with `V` and a cache HIT, whatever the store would answer, and
makes no call on the pool or on the store (the record, the pool and the table
are unchanged).  Consequently a `doPut(K, V1)` whose upsert succeeds followed
by `doGet(K)` replies `V1` with a cache HIT after exactly one store call and
one acquisition in total, those of the upsert (which the store receives as
`key.c_str()` and `value.c_str()`). -/
theorem C10_write_through_hit :
    (∀ (h : KVHandler) (K V : String) (fail : Option String),
      Inv h.cache_ → h.cache_.lookup K = some V →
      ∃ h1, h.doGet K fail = some
          ({ status := 200, body := [("key", K), ("value", V), ("cache", "HIT")] }, h1) ∧
        h1.trace = h.trace ∧ h1.pool_ = h.pool_ ∧ h1.table = h.table ∧ Inv h1.cache_) ∧
    (∀ (h : KVHandler) (K V1 : String) (fail : Option String),
      Inv h.cache_ → h.pool_.conns_ ≠ [] →
      ∃ h1 h2 pg,
        h.doPut K V1 none = some
          ({ status := 200, body := [("status", "ok"), ("key", K), ("value", V1)] }, h1) ∧
        h1.doGet K fail = some
          ({ status := 200, body := [("key", K), ("value", V1), ("cache", "HIT")] }, h2) ∧
        h2.trace = h.trace ++
          [Event.acquire pg, Event.exec pg (Stmt.kv_put (c_str K) (c_str V1)),
            Event.release pg] ∧
        storeCalls h2.trace = storeCalls h.trace + 1 ∧
        acquireCalls h2.trace = acquireCalls h.trace + 1) := by
  have hit : ∀ (h : KVHandler) (K V : String) (fail : Option String),
      Inv h.cache_ → h.cache_.lookup K = some V →
      ∃ h1, h.doGet K fail = some
          ({ status := 200, body := [("key", K), ("value", V), ("cache", "HIT")] }, h1) ∧
        h1.trace = h.trace ∧ h1.pool_ = h.pool_ ∧ h1.table = h.table ∧ Inv h1.cache_ := by
    intro h K V fail hinv hres
    obtain ⟨c1, hget, hi1, -, -, -⟩ :=
      get_entries hinv K V "" ((hinv.lookup_eq_some K V).1 hres)
    exact ⟨{ h with cache_ := c1 }, by simp [KVHandler.doGet, hget], rfl, rfl, rfl, hi1⟩
  refine ⟨hit, ?_⟩
  intro h K V1 fail hinv hpool
  obtain ⟨pg, rest, hconns⟩ := List.exists_cons_of_ne_nil hpool
  obtain ⟨c1, hput, hi1, -, hl1⟩ := put_lookup hinv K V1
  obtain ⟨h2, hget, htr, -, -, -⟩ := hit
    { h with
      cache_ := c1
      pool_ := PGPool.release { conns_ := rest } pg
      table := h.table.upsert (c_str K) (c_str V1)
      trace := h.trace ++ [Event.acquire pg, Event.exec pg (Stmt.kv_put (c_str K) (c_str V1))]
        ++ [Event.release pg] } K V1 fail hi1 hl1
  refine ⟨_, h2, pg, ?_, hget, ?_, ?_, ?_⟩
  · simp [KVHandler.doPut, PGPool.acquire, hconns, hput]
  · rw [htr]
    simp
  · rw [htr]
    simp [storeCalls_append, storeCalls]
  · rw [htr]
    simp [acquireCalls_append, acquireCalls]

theorem C10_write_through_hit_witness :
    (∃ h1, exampleHandler.doGet "a" none = some
        ({ status := 200, body := [("key", "a"), ("value", "1"), ("cache", "HIT")] }, h1) ∧
      h1.trace = exampleHandler.trace) ∧
    (∃ h1 h2, exampleHandler.doPut "k" "v1" none = some
        ({ status := 200, body := [("status", "ok"), ("key", "k"), ("value", "v1")] }, h1) ∧
      h1.doGet "k" none = some
        ({ status := 200, body := [("key", "k"), ("value", "v1"), ("cache", "HIT")] }, h2) ∧
      storeCalls h2.trace = storeCalls exampleHandler.trace + 1) := by
  constructor
  · obtain ⟨h1, e1, e2, -⟩ :=
      C10_write_through_hit.1 exampleHandler "a" "1" none exampleHandler_inv (by decide)
    exact ⟨h1, e1, e2⟩
  · obtain ⟨h1, h2, pg, e1, e2, -, e3, -⟩ :=
      C10_write_through_hit.2 exampleHandler "k" "v1" none exampleHandler_inv (by decide)
    exact ⟨h1, h2, e1, e2, e3⟩

/-- C11: in every handler state whose cache satisfies the class invariant and
whose pool has a connection available, for every key `K` not resident in the
cache whose store lookup (the statement `kv_get` on `K.c_str()`, as the code
sends it) succeeds with a row of value `V`, `doGet(K)` replies
200 with `V` and a cache MISS and leaves the store as it was; afterwards `K`
is resident with value `V` at the front of the list, and an immediately
following `doGet(K)`, whatever the store would answer, replies `V` with a
cache HIT without a store call. -/
theorem C11_read_through (h : KVHandler) (K V : String) (fail2 : Option String)
    (hinv : Inv h.cache_) (hpool : h.pool_.conns_ ≠ [])
    (hmiss : h.cache_.cache_map_.find K = none)
    (hrow : h.table.get (c_str K) = some V) :
    ∃ h1 h2, h.doGet K none = some
        ({ status := 200, body := [("key", K), ("value", V), ("cache", "MISS")] }, h1) ∧
      Inv h1.cache_ ∧ h1.table = h.table ∧
      h1.cache_.lookup K = some V ∧ h1.cache_.entries.head? = some (K, V) ∧
      h1.doGet K fail2 = some
        ({ status := 200, body := [("key", K), ("value", V), ("cache", "HIT")] }, h2) ∧
      h2.trace = h1.trace ∧ storeCalls h2.trace = storeCalls h.trace + 1 := by
  obtain ⟨pg, rest, hconns⟩ := List.exists_cons_of_ne_nil hpool
  obtain ⟨c1, hput, hi1, -, he⟩ := put_entries hinv K V
  have hk : K ∉ h.cache_.keys := (hinv.find_none K).1 hmiss
  have hhead : c1.entries.head? = some (K, V) := by
    rw [he, if_neg hk]
    split <;> rfl
  have hmem : (K, V) ∈ c1.entries := by
    cases hc : c1.entries with
    | nil => simp [hc] at hhead
    | cons e t =>
      simp only [hc, List.head?_cons, Option.some.injEq] at hhead
      simp [hhead]
  have hl1 : c1.lookup K = some V := (hi1.lookup_eq_some K V).2 hmem
  have hget1 := doGet_miss h K none hconns hmiss
  simp only [hrow, hput] at hget1
  obtain ⟨h2, hget2, htr, -, -, -, -⟩ := doGet_hit
    { h with
      cache_ := c1
      pool_ := { conns_ := rest ++ [pg] }
      trace := h.trace ++
        [Event.acquire pg, Event.exec pg (Stmt.kv_get (c_str K)), Event.release pg] }
    K V fail2 hi1 hl1
  refine ⟨_, h2, hget1, hi1, rfl, hl1, hhead, hget2, htr, ?_⟩
  rw [htr]
  simp [storeCalls_append, storeCalls]

theorem C11_read_through_witness :
    ∃ h1 h2, { exampleHandler with cache_ := LRUCache.mk_ 2 }.doGet "a" none = some
        ({ status := 200, body := [("key", "a"), ("value", "1"), ("cache", "MISS")] }, h1) ∧
      h1.cache_.lookup "a" = some "1" ∧
      h1.doGet "a" none = some
        ({ status := 200, body := [("key", "a"), ("value", "1"), ("cache", "HIT")] }, h2) := by
  obtain ⟨h1, h2, e1, -, -, e2, -, e3, -⟩ :=
    C11_read_through { exampleHandler with cache_ := LRUCache.mk_ 2 } "a" "1" none
      (Inv.init 2) (by decide) (by decide) (by decide)
  exact ⟨h1, h2, e1, e2, e3⟩

/-- When the lookup the code sends (of `K.c_str()`) finds no row, `doGet(K)`
replies 404 and leaves cache and store as they were, and a second `doGet(K)`
makes a second store lookup with the same outcome. -/
theorem doGet_not_found_twice (h : KVHandler) (K : String)
    (hpool : h.pool_.conns_ ≠ [])
    (hmiss : h.cache_.cache_map_.find K = none) (hrow : h.table.get (c_str K) = none) :
    ∃ h1 h2 pg1 pg2,
      h.doGet K none = some
        ({ status := 404, body := [("error", "not_found"), ("cache", "MISS")] }, h1) ∧
      h1.cache_ = h.cache_ ∧ h1.table = h.table ∧
      h1.trace = h.trace ++
        [Event.acquire pg1, Event.exec pg1 (Stmt.kv_get (c_str K)), Event.release pg1] ∧
      h1.doGet K none = some
        ({ status := 404, body := [("error", "not_found"), ("cache", "MISS")] }, h2) ∧
      h2.cache_ = h.cache_ ∧ h2.table = h.table ∧
      h2.trace = h1.trace ++
        [Event.acquire pg2, Event.exec pg2 (Stmt.kv_get (c_str K)), Event.release pg2] ∧
      storeCalls h2.trace = storeCalls h.trace + 2 := by
  obtain ⟨pg, rest, hconns⟩ := List.exists_cons_of_ne_nil hpool
  have hget1 := doGet_miss h K none hconns hmiss
  simp only [hrow] at hget1
  obtain ⟨pg2, rest2, hconns2⟩ : ∃ pg2 rest2, rest ++ [pg] = pg2 :: rest2 :=
    List.exists_cons_of_ne_nil (by simp)
  have hget2 := doGet_miss
    { h with
      pool_ := { conns_ := rest ++ [pg] }
      trace := h.trace ++
        [Event.acquire pg, Event.exec pg (Stmt.kv_get (c_str K)), Event.release pg] } K none
    hconns2 hmiss
  simp only [hrow] at hget2
  refine ⟨_, _, pg, pg2, hget1, rfl, rfl, rfl, hget2, rfl, rfl, rfl, ?_⟩
  simp [storeCalls_append, storeCalls]

/-- C12: with the key `K` made of `a`, a NUL character and `b` (the decoding of
`a%00b`), an empty cache and a store holding only the row `("a", "1")`, `K` is
absent from the cache and from the store, yet `doGet(K)` replies 200 with the
value `"1"` of the row `a`, since the store receives `K.c_str()`, and caches
it under `K`; the second `doGet(K)` is then a cache HIT with no second store
lookup. -/
theorem C12_not_found_at_failing_input :
    (exampleHandlerRowA.table.get "a\x00b", exampleHandlerRowA.cache_.lookup "a\x00b",
      (exampleHandlerRowA.doGet "a\x00b" none).map
        (fun r => (r.1, r.2.cache_.lookup "a\x00b")),
      ((exampleHandlerRowA.doGet "a\x00b" none).bind
        (fun r => r.2.doGet "a\x00b" none)).map (fun r => (r.1, storeCalls r.2.trace)))
    = (none, none,
        some ({ status := 200,
                body := [("key", "a\x00b"), ("value", "1"), ("cache", "MISS")] }, some "1"),
        some ({ status := 200,
                body := [("key", "a\x00b"), ("value", "1"), ("cache", "HIT")] }, 1)) := by
  decide

/-- C13: in every handler state whose pool has a connection available, for
every key `K` and value `V`, a `doPut(K, V)` whose upsert fails with message
`err` replies 500 carrying `err` and leaves the cache exactly as it was (hence
the value cached for `K`, the number of entries and the recency order), and
the store as it was. -/
theorem C13_put_failure (h : KVHandler) (K V err : String) (hpool : h.pool_.conns_ ≠ []) :
    ∃ h1, h.doPut K V (some err) = some
        ({ status := 500, body := [("error", "db_error"), ("message", err)] }, h1) ∧
      h1.cache_ = h.cache_ ∧ h1.table = h.table ∧
      h1.cache_.lookup K = h.cache_.lookup K ∧
      h1.cache_.cache_map_.size = h.cache_.cache_map_.size ∧
      h1.cache_.entries = h.cache_.entries := by
  obtain ⟨pg, rest, hconns⟩ := List.exists_cons_of_ne_nil hpool
  refine ⟨{ h with
      pool_ := PGPool.release { conns_ := rest } pg
      trace := h.trace ++
        [Event.acquire pg, Event.exec pg (Stmt.kv_put (c_str K) (c_str V)),
          Event.release pg] },
    ?_, rfl, rfl, rfl, rfl, rfl⟩
  simp [KVHandler.doPut, KVHandler.dbError, PGPool.acquire, hconns]

theorem C13_put_failure_witness :
    ∃ h1, exampleHandler.doPut "a" "9" (some "connection lost") = some
        ({ status := 500, body := [("error", "db_error"), ("message", "connection lost")] },
          h1) ∧
      h1.cache_ = exampleHandler.cache_ := by
  obtain ⟨h1, e1, e2, -⟩ := C13_put_failure exampleHandler "a" "9" "connection lost" (by decide)
  exact ⟨h1, e1, e2⟩

/-- C14: in every handler state whose cache satisfies the class invariant and
whose pool has a connection available, for every key `K`: a `doDelete(K)`
whose store delete succeeds replies 200 and leaves `K` absent from the cache,
the other entries keeping their values and order; one whose store delete
fails with message `err` replies 500 carrying `err` and leaves the cache and
the store exactly as they were. -/
theorem C14_delete_invalidates (h : KVHandler) (K : String)
    (hinv : Inv h.cache_) (hpool : h.pool_.conns_ ≠ []) :
    (∃ h1, h.doDelete K none = some
        ({ status := 200, body := [("status", "deleted"), ("key", K)] }, h1) ∧
      Inv h1.cache_ ∧ h1.cache_.cache_map_.find K = none ∧ h1.cache_.lookup K = none ∧
      h1.cache_.entries = h.cache_.entries.filter (fun e => e.1 != K) ∧
      (∀ k1, k1 ≠ K → h1.cache_.lookup k1 = h.cache_.lookup k1)) ∧
    (∀ err, ∃ h1, h.doDelete K (some err) = some
        ({ status := 500, body := [("error", "db_error"), ("message", err)] }, h1) ∧
      h1.cache_ = h.cache_ ∧ h1.table = h.table) := by
  obtain ⟨pg, rest, hconns⟩ := List.exists_cons_of_ne_nil hpool
  constructor
  · obtain ⟨c1, her, hi1, -, hnone, he⟩ := erase_entries hinv K
    refine ⟨{ h with
        cache_ := c1
        pool_ := PGPool.release { conns_ := rest } pg
        table := h.table.delete (c_str K)
        trace := h.trace ++
          [Event.acquire pg, Event.exec pg (Stmt.kv_del (c_str K)), Event.release pg] },
      by simp [KVHandler.doDelete, PGPool.acquire, hconns, her], hi1, hnone,
      by simp [LRUCache.lookup, hnone], he, ?_⟩
    intro k1 hk1
    refine lookup_filter_ne hinv hi1 K ?_ k1 hk1
    show c1.entries.filter _ = _
    rw [he, List.filter_filter]
    simp
  · intro err
    refine ⟨{ h with
        pool_ := PGPool.release { conns_ := rest } pg
        trace := h.trace ++
          [Event.acquire pg, Event.exec pg (Stmt.kv_del (c_str K)), Event.release pg] },
      ?_, rfl, rfl⟩
    simp [KVHandler.doDelete, KVHandler.dbError, PGPool.acquire, hconns]

theorem C14_delete_invalidates_witness :
    (∃ h1, exampleHandler.doDelete "a" none = some
        ({ status := 200, body := [("status", "deleted"), ("key", "a")] }, h1) ∧
      h1.cache_.lookup "a" = none ∧ h1.cache_.lookup "b" = exampleHandler.cache_.lookup "b") ∧
    (∃ h1, exampleHandler.doDelete "a" (some "boom") = some
        ({ status := 500, body := [("error", "db_error"), ("message", "boom")] }, h1) ∧
      h1.cache_ = exampleHandler.cache_) := by
  have w := C14_delete_invalidates exampleHandler "a" exampleHandler_inv (by decide)
  obtain ⟨⟨h1, e1, -, -, e2, -, e3⟩, w2⟩ := w
  obtain ⟨h2, f1, f2, -⟩ := w2 "boom"
  exact ⟨⟨h1, e1, e2, e3 "b" (by decide)⟩, ⟨h2, f1, f2⟩⟩

/-- C15: in the sequential model, from every handler state whose cache
satisfies the class invariant and whose pool has a connection available, each
of `doGet`, `doPut`, `doDelete` and `warmUpCache` returns, whatever the outcome
of its store statement (cache hit, store error, not found, success), with the
pool holding the handles it held before: either no handle was acquired, or
the one handle acquired was released exactly once (it is then at the back of
the queue).  The number of available handles is the same after as before. -/
theorem C15_pool_restored (h : KVHandler) (hinv : Inv h.cache_)
    (hpool : h.pool_.conns_ ≠ []) :
    (∀ K fail, ∃ r h1, h.doGet K fail = some (r, h1) ∧ poolRestored h h1 ∧
      h1.pool_.conns_.length = h.pool_.conns_.length) ∧
    (∀ K V fail, ∃ r h1, h.doPut K V fail = some (r, h1) ∧ poolRestored h h1 ∧
      h1.pool_.conns_.length = h.pool_.conns_.length) ∧
    (∀ K fail, ∃ r h1, h.doDelete K fail = some (r, h1) ∧ poolRestored h h1 ∧
      h1.pool_.conns_.length = h.pool_.conns_.length) ∧
    (∀ limit fail, ∃ h1, h.warmUpCache limit fail = some h1 ∧ poolRestored h h1 ∧
      h1.pool_.conns_.length = h.pool_.conns_.length) := by
  obtain ⟨pg, rest, hconns⟩ := List.exists_cons_of_ne_nil hpool
  refine ⟨?_, ?_, ?_, ?_⟩
  · intro K fail
    cases hf : h.cache_.cache_map_.find K with
    | some it =>
      obtain ⟨v, hv⟩ := hinv.lookup_of_find hf
      obtain ⟨h1, hget, htr, hp, -⟩ := doGet_hit h K v fail hinv hv
      exact ⟨_, h1, hget, poolRestored_same hp htr⟩
    | none =>
      have hget := doGet_miss h K fail hconns hf
      cases fail with
      | some err =>
        exact ⟨_, _, hget, poolRestored_rotate (Stmt.kv_get (c_str K)) hconns rfl rfl⟩
      | none =>
        cases hrow : h.table.get (c_str K) with
        | none =>
          simp only [hrow] at hget
          exact ⟨_, _, hget, poolRestored_rotate (Stmt.kv_get (c_str K)) hconns rfl rfl⟩
        | some v =>
          obtain ⟨c1, hput, -⟩ := hinv.put K v
          simp only [hrow, hput] at hget
          exact ⟨_, _, hget, poolRestored_rotate (Stmt.kv_get (c_str K)) hconns rfl rfl⟩
  · intro K V fail
    cases fail with
    | some err =>
      refine ⟨KVHandler.dbError err, { h with
          pool_ := PGPool.release { conns_ := rest } pg
          trace := h.trace ++
            [Event.acquire pg, Event.exec pg (Stmt.kv_put (c_str K) (c_str V)),
              Event.release pg] },
        by simp [KVHandler.doPut, PGPool.acquire, hconns], ?_⟩
      exact poolRestored_rotate (Stmt.kv_put (c_str K) (c_str V)) hconns rfl rfl
    | none =>
      obtain ⟨c1, hput, -⟩ := hinv.put K V
      refine ⟨{ status := 200, body := [("status", "ok"), ("key", K), ("value", V)] },
        { h with
          cache_ := c1
          pool_ := PGPool.release { conns_ := rest } pg
          table := h.table.upsert (c_str K) (c_str V)
          trace := h.trace ++
            [Event.acquire pg, Event.exec pg (Stmt.kv_put (c_str K) (c_str V)),
              Event.release pg] },
        by simp [KVHandler.doPut, PGPool.acquire, hconns, hput], ?_⟩
      exact poolRestored_rotate (Stmt.kv_put (c_str K) (c_str V)) hconns rfl rfl
  · intro K fail
    cases fail with
    | some err =>
      refine ⟨KVHandler.dbError err, { h with
          pool_ := PGPool.release { conns_ := rest } pg
          trace := h.trace ++
            [Event.acquire pg, Event.exec pg (Stmt.kv_del (c_str K)), Event.release pg] },
        by simp [KVHandler.doDelete, PGPool.acquire, hconns], ?_⟩
      exact poolRestored_rotate (Stmt.kv_del (c_str K)) hconns rfl rfl
    | none =>
      obtain ⟨c1, her, -⟩ := hinv.erase K
      refine ⟨{ status := 200, body := [("status", "deleted"), ("key", K)] },
        { h with
          cache_ := c1
          pool_ := PGPool.release { conns_ := rest } pg
          table := h.table.delete (c_str K)
          trace := h.trace ++
            [Event.acquire pg, Event.exec pg (Stmt.kv_del (c_str K)), Event.release pg] },
        by simp [KVHandler.doDelete, PGPool.acquire, hconns, her], ?_⟩
      exact poolRestored_rotate (Stmt.kv_del (c_str K)) hconns rfl rfl
  · intro limit fail
    cases fail with
    | some err =>
      refine ⟨{ h with
          pool_ := PGPool.release { conns_ := rest } pg
          trace := h.trace ++
            [Event.acquire pg, Event.exec pg (Stmt.select_recent limit), Event.release pg] },
        by simp [KVHandler.warmUpCache, PGPool.acquire, hconns], ?_⟩
      exact poolRestored_rotate (Stmt.select_recent limit) hconns rfl rfl
    | none =>
      obtain ⟨c1, hrun, -⟩ := hinv.runPuts
        ((h.table.selectRecent limit).map (fun row => (c_str row.1, c_str row.2)))
      refine ⟨{ h with
          cache_ := c1
          pool_ := PGPool.release { conns_ := rest } pg
          trace := h.trace ++
            [Event.acquire pg, Event.exec pg (Stmt.select_recent limit), Event.release pg] },
        by simp [KVHandler.warmUpCache, PGPool.acquire, hconns, hrun], ?_⟩
      exact poolRestored_rotate (Stmt.select_recent limit) hconns rfl rfl

theorem C15_pool_restored_witness :
    (∃ r h1, exampleHandler.doGet "zz" (some "boom") = some (r, h1) ∧
      h1.pool_.conns_.length = 2) ∧
    (∃ h1, exampleHandler.warmUpCache 10 none = some h1 ∧ h1.pool_.conns_.length = 2) := by
  have w := C15_pool_restored exampleHandler exampleHandler_inv (by decide)
  obtain ⟨r, h1, e1, -, e2⟩ := w.1 "zz" (some "boom")
  obtain ⟨h2, f1, -, f2⟩ := w.2.2.2 10 none
  exact ⟨⟨r, h1, e1, e2⟩, ⟨h2, f1, f2⟩⟩

/-- C16: the handler built with `KVHandler(pool, CACHE_MAX_ITEMS)` over a store
of two rows, `"new"` updated after `"old"`, warms its empty cache up to the
list `old, new`: the row put first, which the query returns first because it
is the most recently updated, is at the back of `lru_list_` and so is the next
eviction victim, and the least recently updated row is at the front. -/
theorem C16_warmup_order_at_failing_input :
    (KVHandler.mk_ (PGPool.mk_ [10, 11]) KVHandler.CACHE_MAX_ITEMS exampleTable2 none).map
        (fun h => (h.cache_.entries.head?, back h.cache_.lru_list_ |>.map Node.first))
      = some (some ("old", "o"), some "new") := by
  decide

/-- C18: for a pool built with pairwise distinct handles and every sequence of
`acquire` and `release` calls in which `acquire` is taken only when a handle
is available and `release` returns a handle some caller holds, after every
step (every prefix of the sequence runs, and in the state it reaches): the
available and the outstanding handles number the pool size together, at most
the pool size are outstanding, neither the queue nor the outstanding handles
contain a duplicate, no handle is both available and outstanding, and the
handles are those the pool was built with. -/
theorem C18_pool_conservation (handles : List PGconn) (hnd : handles.Nodup)
    (ops : List PoolOp) (final : PoolState)
    (hadm : poolRun { pool := PGPool.mk_ handles, outstanding := [] } ops = some final)
    (n : Nat) :
    ∃ s, poolRun { pool := PGPool.mk_ handles, outstanding := [] } (ops.take n) = some s ∧
      s.pool.conns_.length + s.outstanding.length = handles.length ∧
      s.outstanding.length ≤ handles.length ∧
      s.pool.conns_.Nodup ∧ s.outstanding.Nodup ∧
      (∀ c ∈ s.pool.conns_, c ∉ s.outstanding) ∧
      (∀ c, c ∈ s.pool.conns_ ∨ c ∈ s.outstanding ↔ c ∈ handles) := by
  obtain ⟨s, hs⟩ := poolRun_take ops n hadm
  obtain ⟨hlen, hnodup, hperm⟩ :=
    @poolRun_inv handles.length (ops.take n)
      { pool := PGPool.mk_ handles, outstanding := [] } s
      (by simp [PGPool.mk_]) (by simpa [PGPool.mk_] using hnd) hs
  have hparts := List.nodup_append.1 hnodup
  refine ⟨s, hs, hlen, by omega, hparts.1, hparts.2.1, ?_, ?_⟩
  · intro c hc hout
    exact hparts.2.2 hc hout
  · intro c
    have := hperm.mem_iff (a := c)
    simpa [PGPool.mk_] using this

theorem C18_pool_conservation_witness :
    ∃ s, poolRun { pool := PGPool.mk_ [10, 11, 12], outstanding := [] }
        ([PoolOp.acquire, PoolOp.acquire, PoolOp.release 10, PoolOp.acquire].take 3) = some s ∧
      s.pool.conns_.length + s.outstanding.length = 3 ∧ s.pool.conns_.Nodup := by
  obtain ⟨s, h1, h2, -, h3, -⟩ :=
    C18_pool_conservation [10, 11, 12] (by decide)
      [PoolOp.acquire, PoolOp.acquire, PoolOp.release 10, PoolOp.acquire]
      { pool := { conns_ := [10] }, outstanding := [12, 11] } (by decide) 3
  exact ⟨s, h1, h2, h3⟩

/-- From a handler with an empty cache, any store content and a connection
available, every sequence of requests whose keys and values hold no NUL
character returns, and afterwards every key cached with value `v` has a row
in the store whose value is exactly `v`. -/
theorem serve_agrees_of_plain (pool : PGPool) (hpool : pool.conns_ ≠ [])
    (cache_size : Nat) (table : Table) (reqs : List Request)
    (hplain : ∀ r ∈ reqs, r.plain) :
    ∃ h1, serve { pool_ := pool, cache_ := LRUCache.mk_ cache_size, table := table,
                  trace := [] } reqs = some h1 ∧
      (∀ k v, h1.cache_.lookup k = some v → h1.table.get k = some v) ∧
      (∀ e ∈ h1.cache_.entries, h1.table.get e.1 = some e.2) := by
  have hs : Served { pool_ := pool, cache_ := LRUCache.mk_ cache_size, table := table,
                     trace := [] } :=
    ⟨Inv.init cache_size, hpool, by simp [LRUCache.entries, LRUCache.mk_]⟩
  obtain ⟨h1, hserve, hs1⟩ := hs.serve reqs hplain
  refine ⟨h1, hserve, ?_, hs1.agree⟩
  intro k v hl
  exact hs1.agree (k, v) ((hs1.inv.lookup_eq_some k v).1 hl)

/-- C19: from an empty cache over an empty store, after the single call
`doPut("k", V)` with `V` made of `a`, a NUL character and `b`, the upsert
succeeding, the cache holds `V` for `"k"` while the store holds `"a"`: the
store received `value.c_str()`, the cache the whole string. -/
theorem C19_agreement_at_failing_input :
    (serve exampleHandlerEmpty [Request.put "k" "a\x00b" none]).map
        (fun h => (h.cache_.lookup "k", h.table.get "k"))
      = some (some "a\x00b", some "a") := by
  decide

/-- C21: for every input string in which each `%` is immediately followed by
two hexadecimal digits, `url_decode` returns the reference percent-decoding
(each `%XY` becomes the character of value `16 * X + Y`, each `+` a space,
every other character is copied in order); the length of the result is the
length of the input minus twice the number of `%`, and an input with no `%`
and no `+` is returned unchanged. -/
theorem C21_url_decode (s : String) (h : EachPercentEscaped s.data) :
    url_decode s = some (String.mk (percentDecode s.data)) ∧
      (percentDecode s.data).length + 2 * s.data.count '%' = s.length ∧
      ('%' ∉ s.data → '+' ∉ s.data → url_decode s = some s) := by
  obtain ⟨e1, e2⟩ := url_decode_from_eq s.data.length s.data none (le_refl _) h
  refine ⟨by simp [url_decode, e1], e2, ?_⟩
  intro h1 h2
  simp [url_decode, e1, percentDecode_plain s.data h1 h2]

theorem C21_url_decode_witness :
    url_decode "a%41+b%2fc" = some "aA b/c" := by
  have w := (C21_url_decode "a%41+b%2fc" (by unfold EachPercentEscaped; decide)).1
  rw [w]
  decide

/-- C22: with `GET_PERCENT=90` and `PUT_PERCENT` not set, both percentages pass
the validation (90 and the default 20), and of the 100 draws 90 choose GET,
only 10 choose PUT and none chooses DELETE, while the banner reports PUT=20%
and DELETE=-10%. -/
theorem C22_split_at_failing_input :
    (LoadTester.get_percent (LoadTester.EnvValue.parsed 90),
      LoadTester.put_percent LoadTester.EnvValue.unset,
      LoadTester.draws 90 20 LoadTester.Method.GET,
      LoadTester.draws 90 20 LoadTester.Method.PUT,
      LoadTester.draws 90 20 LoadTester.Method.DELETE,
      LoadTester.bannerDelete 90 20) = (90, 20, 90, 10, 0, -10) := by
  decide

end KVServer
